import Mathlib

/-!
# Greedy search engine and static buffer cache

A shallow embedding of `Generators/Search.cpp` (the greedy decode loop and the
logit processors) and of `src/models/static_buffer.cpp` (the reuse-only tensor
buffer), followed by theorems about them.

Conventions of the embedding

* A `gsl::span` or tensor data block is a `List`; every bounds-checked access
  (`operator[]`, `subspan`) and every raw-pointer read outside the block makes
  the operation return `none`.
* Sizes and loop counters are `Nat`, token ids (`int32_t`) are `Int`.
* `ScoreType` is a type parameter `α`; the claims fix it to a linear order or
  to `ℚ`.
* The external model is not run: the logits tensor it would produce is an
  argument of `RunModel`.
* `size_t` arithmetic wraps modulo `2 ^ 64` where the source does not check it.
-/

namespace Generators

/-! ## Data model -/

/-- Search parameters (`SearchParams`, declared in the absent header). -/
structure SearchParams where
  batch_size : Nat
  num_beams : Nat
  sequence_length : Nat
  max_length : Nat
  vocab_size : Nat
  eos_token_id : Int
  pad_token_id : Int
deriving DecidableEq, Repr

/-- Modelled from the spec: `BatchBeamSize` lives in the absent header; the spec
defines `batch_beam_size = batch_size × beam_count`. -/
def SearchParams.BatchBeamSize (p : SearchParams) : Nat :=
  p.batch_size * p.num_beams

/-- The logits tensor owned by the model (`model_.logits_`): its shape and its
flat row-major data. -/
structure Logits (α : Type) where
  shape : List Nat
  data : List α
deriving DecidableEq, Repr

/-- Modelled from the spec: the `Sequences` class is absent. It is a view of
`row_count` rows, `max_length` columns each, laid out row-major over the
backing buffer `sequences_space`, together with the uniform current length. -/
structure Sequences where
  row_count : Nat
  current_length : Nat
  max_length : Nat
deriving DecidableEq, Repr

/-- The state of a `Search` object, with the part of the model it reads. -/
structure Search (α : Type) where
  params_ : SearchParams
  first_run_ : Bool
  logits_ : Logits α
  sequences_space : List Int
  sequences_ : Sequences
  eos_meet : List Bool
  next_tokens : List Int
  next_token_scores : List α
  done_ : Bool
  output_sequences_ : List Int
deriving DecidableEq, Repr

/-! ## Token selection -/

/-- The inner loop of `NextTokensFromLogits`: `token` runs upwards for
`remaining` iterations, reading `logits_data[token]` relative to the row
pointer `base`; a strictly greater score replaces the best one. -/
def bestTokenLoop {α : Type} [LinearOrder α] (logits_data : List α) (base : Nat) :
    Nat → Nat → Nat → α → Option Nat
  | 0, _, best_token, _ => some best_token
  | remaining + 1, token, best_token, best_score =>
    match logits_data[base + token]? with
    | none => none
    | some x =>
      if x > best_score then bestTokenLoop logits_data base remaining (token + 1) token x
      else bestTokenLoop logits_data base remaining (token + 1) best_token best_score

/-- One row of `NextTokensFromLogits`: `best_token = 0`, `best_score =
logits_data[0]`, then tokens `1 .. vocab_size - 1`. -/
def bestToken {α : Type} [LinearOrder α] (logits_data : List α) (base vocab_size : Nat) :
    Option Nat :=
  match logits_data[base]? with
  | none => none
  | some best_score => bestTokenLoop logits_data base (vocab_size - 1) 1 0 best_score

/-- The outer loop of `NextTokensFromLogits`: row `i` is scanned at `base`,
the result is stored in `next_tokens[i]`, and the row pointer advances by
`vocab_size`. -/
def nextTokensLoop {α : Type} [LinearOrder α] (logits_data : List α) (vocab_size : Nat) :
    Nat → Nat → Nat → List Int → Option (List Int)
  | 0, _, _, next_tokens => some next_tokens
  | remaining + 1, i, base, next_tokens =>
    match bestToken logits_data base vocab_size with
    | none => none
    | some best_token =>
      if i < next_tokens.length then
        nextTokensLoop logits_data vocab_size remaining (i + 1) (base + vocab_size)
          (next_tokens.set i (best_token : Int))
      else none

/-- Embeds `Search::NextTokensFromLogits`: scans the data of `model_.logits_`
from its start, `vocab_size` entries per row, for `batch_size` rows. -/
def Search.NextTokensFromLogits {α : Type} [LinearOrder α] (s : Search α) :
    Option (Search α) :=
  match nextTokensLoop s.logits_.data s.params_.vocab_size s.params_.batch_size 0 0
      s.next_tokens with
  | none => none
  | some next_tokens => some { s with next_tokens := next_tokens }

/-! ## Spans -/

/-- A `gsl::span` that views part of a buffer: where the view starts in the
buffer and how many elements it spans. -/
structure Span where
  offset : Nat
  size : Nat
deriving DecidableEq, Repr

/-- The range-checked `subspan(offset, count)` of a whole buffer (also the span
built over `count` elements at a raw pointer `offset` into a data block, where
leaving the block is a failure). -/
def subspan {α : Type} (buffer : List α) (offset count : Nat) : Option Span :=
  if offset + count ≤ buffer.length then some ⟨offset, count⟩ else none

/-- The bounds-checked `operator[]` of a span: the buffer position of element
`index`, or failure when `index` is negative or not below the size. -/
def Span.index (sp : Span) (index : Int) : Option Nat :=
  if 0 ≤ index ∧ index < (sp.size : Int) then some (sp.offset + index.toNat) else none

/-- The elements a span views. -/
def Span.read {α : Type} (sp : Span) (buffer : List α) : List α :=
  (buffer.drop sp.offset).take sp.size

/-- The effect on its buffer of `gsl::copy(source, target)`: the elements of
`source` replace those at the start of `target`; it fails when the source is
larger than the target. -/
def copy {α : Type} (source : List α) (target : Span) (buffer : List α) : Option (List α) :=
  if source.length ≤ target.size then
    some (buffer.take target.offset ++ source ++ buffer.drop (target.offset + source.length))
  else none

/-- Multiplication in `SafeInt<size_t>`: fails instead of wrapping. -/
def safeMul (a b : Nat) : Option Nat :=
  if a * b < 2 ^ 64 then some (a * b) else none

/-! ## Sequence store -/

/-- Modelled from the spec: `Sequences::Init` is absent. It records the row
count, the prompt length as the current length of every row, and the row
width; the tokens themselves are installed by `SetSequence`. -/
def Sequences.Init (row_count sequence_length max_length : Nat) : Sequences :=
  ⟨row_count, sequence_length, max_length⟩

/-- Modelled from the spec: `Sequences::GetSequenceLength` is absent; the
uniform current length of the rows. -/
def Sequences.GetSequenceLength (sq : Sequences) : Nat :=
  sq.current_length

/-- Modelled from the spec: `Sequences::GetSequence` is absent; the spec gives
the row view as the full padded row, `max_length` wide. -/
def Sequences.GetSequence (sq : Sequences) (sequences_space : List Int) (row : Nat) :
    Option (List Int) :=
  match subspan sequences_space (row * sq.max_length) sq.max_length with
  | none => none
  | some sp => some (sp.read sequences_space)

/-- Modelled from the spec: the row loop of the absent append;
`next_tokens[row]` goes to column `current_length` of row `row`. -/
def appendLoop (next_tokens : List Int) (max_length current_length : Nat) :
    Nat → Nat → List Int → Option (List Int)
  | 0, _, sequences_space => some sequences_space
  | remaining + 1, row, sequences_space =>
    match next_tokens[row]? with
    | none => none
    | some token =>
      if row * max_length + current_length < sequences_space.length then
        appendLoop next_tokens max_length current_length remaining (row + 1)
          (sequences_space.set (row * max_length + current_length) token)
      else none

/-- Modelled from the spec: `Sequences::AppendNextTokenToSequences` is absent.
For every row it writes `next_tokens[row]` into column `current_length`, then
increments the length; it fails if the length would exceed `max_length`. -/
def Sequences.AppendNextTokenToSequences (sq : Sequences) (sequences_space : List Int)
    (next_tokens : List Int) : Option (Sequences × List Int) :=
  if sq.current_length < sq.max_length then
    match appendLoop next_tokens sq.max_length sq.current_length sq.row_count 0
        sequences_space with
    | none => none
    | some space => some ({ sq with current_length := sq.current_length + 1 }, space)
  else none

/-! ## Construction -/

/-- The inner loop of `SetSequence` for row `i`: column `j` of the input goes
to `sequences_0[i * max_length + j]`. -/
def setSequenceRow (input_ids_in_cpu : List Int) (sequence_length max_length i : Nat) :
    Nat → Nat → List Int → Option (List Int)
  | 0, _, sequences_0 => some sequences_0
  | remaining + 1, j, sequences_0 =>
    match input_ids_in_cpu[i * sequence_length + j]? with
    | none => none
    | some id =>
      if i * max_length + j < sequences_0.length then
        setSequenceRow input_ids_in_cpu sequence_length max_length i remaining (j + 1)
          (sequences_0.set (i * max_length + j) id)
      else none

/-- The outer loop of `SetSequence` over the rows `i < batch_beam_size`. -/
def setSequenceLoop (input_ids_in_cpu : List Int) (sequence_length max_length : Nat) :
    Nat → Nat → List Int → Option (List Int)
  | 0, _, sequences_0 => some sequences_0
  | remaining + 1, i, sequences_0 =>
    match setSequenceRow input_ids_in_cpu sequence_length max_length i sequence_length 0
        sequences_0 with
    | none => none
    | some sequences_1 =>
      setSequenceLoop input_ids_in_cpu sequence_length max_length remaining (i + 1) sequences_1

/-- Embeds `Search::SetSequence`. -/
def Search.SetSequence {α : Type} (s : Search α) (input_ids_in_cpu : List Int) :
    Option (Search α) :=
  match setSequenceLoop input_ids_in_cpu s.params_.sequence_length s.params_.max_length
      s.params_.BatchBeamSize 0 s.sequences_space with
  | none => none
  | some sequences_0 => some { s with sequences_space := sequences_0 }

/-- The constructor `Search::Search` (named `new`, as the type has the name). The argument `expanded_input_ids` is the
data of `model.expanded_input_ids_`, which the model prepares in
`CreateInputs`. The model starts with `first_run_` set and no logits; `done_`
starts cleared (both initial values are in absent headers, the spec has the
state zeroed before first use). The position and length buffers, which only
the model reads, are left out. The output tensor, allocated uninitialised, is
shown zero-filled. -/
def Search.new {α : Type} [Zero α] (params : SearchParams) (expanded_input_ids : List Int) :
    Option (Search α) :=
  match safeMul 2 params.batch_size with
  | none => none
  | some two_b =>
    match safeMul two_b params.max_length, safeMul params.batch_size params.vocab_size with
    | some sequences_size, some next_token_size =>
      Search.SetSequence
        { params_ := params
          first_run_ := true
          logits_ := ⟨[], []⟩
          sequences_space := List.replicate sequences_size 0
          sequences_ := Sequences.Init params.batch_size params.sequence_length params.max_length
          eos_meet := List.replicate params.batch_size false
          next_tokens := List.replicate params.batch_size 0
          next_token_scores := List.replicate next_token_size 0
          done_ := false
          output_sequences_ := List.replicate (params.batch_size * params.max_length) 0 }
        expanded_input_ids
    | _, _ => none

/-! ## One decode step -/

/-- The row loop of `RunModel`: the `vocab_size` logits at `current_logits`
are copied to row `i` of the score buffer, then `current_logits` advances by
`input_length * vocab_size`. -/
def runModelLoop {α : Type} (logits_data : List α) (vocab_size input_length : Nat) :
    Nat → Nat → Nat → List α → Option (List α)
  | 0, _, _, next_token_scores => some next_token_scores
  | remaining + 1, i, current_logits, next_token_scores =>
    match subspan logits_data current_logits vocab_size,
        subspan next_token_scores (i * vocab_size) vocab_size with
    | some source, some target =>
      match copy (source.read logits_data) target next_token_scores with
      | none => none
      | some scores =>
        runModelLoop logits_data vocab_size input_length remaining (i + 1)
          (current_logits + input_length * vocab_size) scores
    | _, _ => none

/-- Embeds `Search::RunModel`, given the logits tensor the model run produces. The
`assert` on the rank aborts. With `input_length = 0` and a non-empty
vocabulary the read pointer `logits_data + (input_length - 1) * vocab_size`
would lie before the data, which is a failure. -/
def Search.RunModel {α : Type} (s : Search α) (logits : Logits α) : Option (Search α) :=
  if logits.shape.length = 3 then
    match logits.shape[1]? with
    | none => none
    | some input_length =>
      if input_length = 0 ∧ 0 < s.params_.vocab_size then none
      else
        match runModelLoop logits.data s.params_.vocab_size input_length
            s.params_.batch_size 0 ((input_length - 1) * s.params_.vocab_size)
            s.next_token_scores with
        | none => none
        | some scores =>
          some { s with first_run_ := false, logits_ := logits, next_token_scores := scores }
  else none

/-- The first loop of `CheckForEOS`. A row whose token is the eos id or whose
flag is set gets its flag set and its token replaced by the pad id. (Both
`next_tokens[batch_id]` and `eos_meet[batch_id]` are accessed in either branch
of the short-circuit test, as a read or as the write.) -/
def checkForEOSLoop (eos_token_id pad_token_id : Int) :
    Nat → Nat → List Int → List Bool → Option (List Int × List Bool)
  | 0, _, next_tokens, eos_meet => some (next_tokens, eos_meet)
  | remaining + 1, batch_id, next_tokens, eos_meet =>
    match next_tokens[batch_id]?, eos_meet[batch_id]? with
    | some token, some flag =>
      if token = eos_token_id ∨ flag = true then
        checkForEOSLoop eos_token_id pad_token_id remaining (batch_id + 1)
          (next_tokens.set batch_id pad_token_id) (eos_meet.set batch_id true)
      else
        checkForEOSLoop eos_token_id pad_token_id remaining (batch_id + 1) next_tokens eos_meet
    | _, _ => none

/-- The `while` loop of `CheckForEOS`: `batch_id` advances until it finds a
cleared flag (`break`) or reaches the size. -/
def firstUnfinished (eos_meet : List Bool) : Nat → Nat → Nat
  | 0, batch_id => batch_id
  | remaining + 1, batch_id =>
    match eos_meet[batch_id]? with
    | some true => firstUnfinished eos_meet remaining (batch_id + 1)
    | _ => batch_id

/-- Embeds `Search::CheckForEOS`. -/
def Search.CheckForEOS {α : Type} (s : Search α) : Option (Search α) :=
  match checkForEOSLoop s.params_.eos_token_id s.params_.pad_token_id s.next_tokens.length 0
      s.next_tokens s.eos_meet with
  | none => none
  | some (next_tokens, eos_meet) =>
    some { s with
      next_tokens := next_tokens
      eos_meet := eos_meet
      done_ := if firstUnfinished eos_meet eos_meet.length 0 = eos_meet.length then true
               else s.done_ }

/-- Embeds `Search::AppendNextTokensToSequences`. -/
def Search.AppendNextTokensToSequences {α : Type} (s : Search α) : Option (Search α) :=
  match s.sequences_.AppendNextTokenToSequences s.sequences_space s.next_tokens with
  | none => none
  | some (sequences, space) =>
    some { s with
      sequences_ := sequences
      sequences_space := space
      done_ := if sequences.GetSequenceLength = s.params_.max_length then true else s.done_ }

/-- The row loop of `Finalize`. -/
def finalizeLoop (sq : Sequences) (sequences_space : List Int) (max_length : Nat) :
    Nat → Nat → List Int → Option (List Int)
  | 0, _, output => some output
  | remaining + 1, batch_id, output =>
    match subspan output (batch_id * max_length) max_length,
        sq.GetSequence sequences_space batch_id with
    | some batch_output, some sequence_source =>
      match copy sequence_source batch_output output with
      | none => none
      | some output1 => finalizeLoop sq sequences_space max_length remaining (batch_id + 1) output1
    | _, _ => none

/-- Embeds `Search::Finalize`. -/
def Search.Finalize {α : Type} (s : Search α) : Option (Search α) :=
  match finalizeLoop s.sequences_ s.sequences_space s.params_.max_length s.params_.batch_size 0
      s.output_sequences_ with
  | none => none
  | some output => some { s with output_sequences_ := output }

/-! ## Logit processors -/

/-- Embeds `Search::GetScores`: the `assert` on the index, then the row's subspan of
the score buffer. -/
def GetScores {α : Type} (params : SearchParams) (next_token_scores : List α)
    (batch_beam_index : Nat) : Option Span :=
  if batch_beam_index < params.BatchBeamSize then
    subspan next_token_scores (batch_beam_index * params.vocab_size) params.vocab_size
  else none

/-- The row loop of `MinLength`. -/
def minLengthLoop {α : Type} (lowest : α) (params : SearchParams) :
    Nat → Nat → List α → Option (List α)
  | 0, _, next_token_scores => some next_token_scores
  | remaining + 1, i, next_token_scores =>
    match GetScores params next_token_scores i with
    | none => none
    | some beam_token_scores =>
      match beam_token_scores.index params.eos_token_id with
      | none => none
      | some pos =>
        minLengthLoop lowest params remaining (i + 1) (next_token_scores.set pos lowest)

/-- Embeds `Processors::MinLength`; `lowest` stands for
`std::numeric_limits<ScoreType>::lowest()`. -/
def Processors.MinLength {α : Type} (lowest : α) (search : Search α) (min_length : Int) :
    Option (Search α) :=
  if (search.sequences_.GetSequenceLength : Int) ≥ min_length then some search
  else
    match minLengthLoop lowest search.params_ search.params_.BatchBeamSize 0
        search.next_token_scores with
    | none => none
    | some scores => some { search with next_token_scores := scores }

/-- The set `unique_word_ids` of a row, as the list of its elements: every
word id of the sequence is inserted, duplicates are dropped. The order in which
a `std::unordered_set` is traversed is unspecified; the list fixes one order,
and `penalizeLoop_spec` below holds for every duplicate-free enumeration, so
the result does not depend on it. -/
def uniqueWordIds (sequence : List Int) : List Int :=
  sequence.foldl (fun unique_word_ids word_id => unique_word_ids.insert word_id) []

/-- The loop of `RepetitionPenalty` over the unique word ids of one row. -/
def penalizeLoop {α : Type} [LinearOrderedField α] (penalty : α) (beam_token_scores : Span) :
    List Int → List α → Option (List α)
  | [], next_token_scores => some next_token_scores
  | word_id :: rest, next_token_scores =>
    match beam_token_scores.index word_id with
    | none => none
    | some pos =>
      match next_token_scores[pos]? with
      | none => none
      | some score =>
        penalizeLoop penalty beam_token_scores rest
          (next_token_scores.set pos (if score < 0 then score * penalty else score / penalty))

/-- The row loop of `RepetitionPenalty`. -/
def repetitionPenaltyLoop {α : Type} [LinearOrderedField α] (penalty : α)
    (params : SearchParams) (sq : Sequences) (sequences_space : List Int) :
    Nat → Nat → List α → Option (List α)
  | 0, _, next_token_scores => some next_token_scores
  | remaining + 1, i, next_token_scores =>
    match GetScores params next_token_scores i, sq.GetSequence sequences_space i with
    | some beam_token_scores, some sequence =>
      match penalizeLoop penalty beam_token_scores (uniqueWordIds sequence)
          next_token_scores with
      | none => none
      | some scores =>
        repetitionPenaltyLoop penalty params sq sequences_space remaining (i + 1) scores
    | _, _ => none

/-- Embeds `Processors::RepetitionPenalty`. -/
def Processors.RepetitionPenalty {α : Type} [LinearOrderedField α] (search : Search α)
    (penalty : α) : Option (Search α) :=
  match repetitionPenaltyLoop penalty search.params_ search.sequences_ search.sequences_space
      search.params_.BatchBeamSize 0 search.next_token_scores with
  | none => none
  | some scores => some { search with next_token_scores := scores }

/-! ## Static buffer -/

/-- The element types of `ONNXTensorElementDataType` (an enumeration of the
ONNX Runtime C API). -/
inductive ONNXTensorElementDataType where
  | UNDEFINED | FLOAT | UINT8 | INT8 | UINT16 | INT16 | INT32 | INT64 | STRING | BOOL
  | FLOAT16 | DOUBLE | UINT32 | UINT64 | COMPLEX64 | COMPLEX128 | BFLOAT16
deriving DecidableEq, Repr

/-- The external allocator, as far as the buffer observes it: the byte counts
of the `Alloc` calls made so far, and the address each call returns as a
function of the number of earlier calls and the byte count (`0` is the null
pointer). -/
structure Allocator where
  address : Nat → Nat → Nat
  allocs : List Nat

/-- Embeds `Ort::Allocator::Alloc`: returns the block address and logs the call. -/
def Allocator.Alloc (a : Allocator) (bytes : Nat) : Nat × Allocator :=
  (a.address a.allocs.length bytes, { a with allocs := a.allocs ++ [bytes] })

/-- The tensor view made by `OrtValue::CreateTensor(info, p_data, p_data_len,
shape, type)`: a record of its arguments. -/
structure OrtValue where
  p_data : Nat
  p_data_len : Nat
  shape : List Int
  type : ONNXTensorElementDataType
deriving DecidableEq, Repr

/-- The state of a `StaticBuffer`: the block (`0` while there is none) and its
size in bytes. -/
structure StaticBuffer where
  buffer_ : Nat
  bytes_ : Nat
deriving DecidableEq, Repr

/-- Embeds `StaticBuffer::GetElementSize`; the `default` branch throws. -/
def StaticBuffer.GetElementSize : ONNXTensorElementDataType → Option Nat
  | .FLOAT16 => some 2
  | .FLOAT => some 4
  | .INT32 => some 4
  | .INT64 => some 8
  | _ => none

/-- Embeds `StaticBuffer::GetNumElements`: the running product in `size_t`, each
`int64_t` dimension converted to `size_t`. -/
def StaticBuffer.GetNumElements (shape : List Int) : Nat :=
  shape.foldl (fun num_elements dim => (num_elements * (dim % 2 ^ 64).toNat) % 2 ^ 64) 1

/-- Embeds `StaticBuffer::GetOrCreateTensor`. The statement that builds a
`std::runtime_error` when `new_bytes > bytes_` has no `throw`, so it has no
effect and both cases of the comparison continue to the final `return`. -/
def StaticBuffer.GetOrCreateTensor (sb : StaticBuffer) (allocator_ : Allocator)
    (shape : List Int) (type : ONNXTensorElementDataType) :
    Option (OrtValue × StaticBuffer × Allocator) :=
  match StaticBuffer.GetElementSize type with
  | none => none
  | some element_size =>
    let new_bytes := (element_size * StaticBuffer.GetNumElements shape) % 2 ^ 64
    if sb.buffer_ = 0 then
      let (block, allocator1) := allocator_.Alloc new_bytes
      some (⟨block, new_bytes, shape, type⟩, ⟨block, new_bytes⟩, allocator1)
    else if new_bytes > sb.bytes_ then
      some (⟨sb.buffer_, new_bytes, shape, type⟩, sb, allocator_)
    else
      some (⟨sb.buffer_, new_bytes, shape, type⟩, sb, allocator_)

/-- A sequence of `GetOrCreateTensor` calls on one buffer, each request a shape
and an element type; the result lists, per call, the view returned and the
buffer and allocator as the call left them. -/
def StaticBuffer.calls (sb : StaticBuffer) (allocator_ : Allocator) :
    List (List Int × ONNXTensorElementDataType) →
      Option (List (OrtValue × StaticBuffer × Allocator))
  | [] => some []
  | (shape, type) :: rest =>
    match sb.GetOrCreateTensor allocator_ shape type with
    | none => none
    | some (view, sb1, allocator1) =>
      match StaticBuffer.calls sb1 allocator1 rest with
      | none => none
      | some results => some ((view, sb1, allocator1) :: results)

/-! ## Runs -/

/-- One decode step of the loop: `RunModel` (the model returning `logits`),
`NextTokensFromLogits`, `CheckForEOS`, `AppendNextTokensToSequences`. -/
def Search.step {α : Type} [LinearOrder α] (s : Search α) (logits : Logits α) :
    Option (Search α) :=
  match s.RunModel logits with
  | none => none
  | some s1 =>
    match s1.NextTokensFromLogits with
    | none => none
    | some s2 =>
      match s2.CheckForEOS with
      | none => none
      | some s3 => s3.AppendNextTokensToSequences

/-- Consecutive decode steps, one per model output. -/
def Search.steps {α : Type} [LinearOrder α] (s : Search α) : List (Logits α) → Option (Search α)
  | [] => some s
  | logits :: rest =>
    match s.step logits with
    | none => none
    | some s1 => s1.steps rest

/-- Specification of the selection in the spec's words: for each row, the
first index of a maximal score among that row's `vocab_size` scores of the
working score buffer `next_token_scores` (the source instead scans
`model_.logits_`, see `Search.NextTokensFromLogits`). -/
def Search.NextTokensFromScores {α : Type} [LinearOrder α] (s : Search α) :
    Option (Search α) :=
  match nextTokensLoop s.next_token_scores s.params_.vocab_size s.params_.batch_size 0 0
      s.next_tokens with
  | none => none
  | some next_tokens => some { s with next_tokens := next_tokens }

/-! ## Properties stated by the theorems -/

/-- The buffer sizes and the sequence view agree with the parameters, as the
constructor sets them up. -/
def Search.WellFormed {α : Type} (s : Search α) : Prop :=
  s.next_tokens.length = s.params_.batch_size ∧
  s.eos_meet.length = s.params_.batch_size ∧
  s.sequences_.row_count = s.params_.batch_size ∧
  s.sequences_.max_length = s.params_.max_length

/-- The property of one scanned row: `t` is the least index of a maximal entry
among the `vocab_size` entries of `logits_data` that start at `base`. -/
def IsLeastArgmax {α : Type} [LinearOrder α] (logits_data : List α) (base vocab_size t : Nat) :
    Prop :=
  t < vocab_size ∧ ∃ score_t, logits_data[base + t]? = some score_t ∧
    (∀ u, u < vocab_size → ∃ x, logits_data[base + u]? = some x ∧ x ≤ score_t) ∧
    (∀ u, u < t → ∃ x, logits_data[base + u]? = some x ∧ x < score_t)

/-! ## Concrete states used by the witnesses -/

/-- A state with two rows of three integer scores in the model's logits. -/
def twoRowSearch : Search Int :=
  { params_ := ⟨2, 1, 1, 4, 3, 9, 0⟩, first_run_ := false,
    logits_ := ⟨[2, 1, 3], [1, 5, 5, 7, 7, 7]⟩, sequences_space := [],
    sequences_ := ⟨2, 1, 4⟩, eos_meet := [false, false], next_tokens := [0, 0],
    next_token_scores := [], done_ := false, output_sequences_ := [] }

/-- Parameters of a small run: one row, prompt length 1, room for 4 tokens, two
token ids, eos id 1, pad id 7. -/
def runParams : SearchParams := ⟨1, 1, 1, 4, 2, 1, 7⟩

/-- The state the constructor builds from `runParams` and the prompt `[0]`. -/
def runStart : Search Int :=
  { params_ := runParams, first_run_ := true, logits_ := ⟨[], []⟩,
    sequences_space := [0, 0, 0, 0, 0, 0, 0, 0], sequences_ := ⟨1, 1, 4⟩,
    eos_meet := [false], next_tokens := [0], next_token_scores := [0, 0],
    done_ := false, output_sequences_ := [0, 0, 0, 0] }

/-- The state after a first step in which the model's logits are `[0, 5]`. -/
def runAfterEos : Search Int :=
  { runStart with
    first_run_ := false, logits_ := ⟨[1, 1, 2], [0, 5]⟩,
    sequences_space := [0, 7, 0, 0, 0, 0, 0, 0], sequences_ := ⟨1, 2, 4⟩,
    eos_meet := [true], next_tokens := [7], next_token_scores := [0, 5], done_ := true }

/-- The state after a second step in which the model's logits are `[5, 0]`. -/
def runLater : Search Int :=
  { runAfterEos with
    logits_ := ⟨[1, 1, 2], [5, 0]⟩,
    sequences_space := [0, 7, 7, 0, 0, 0, 0, 0], sequences_ := ⟨1, 3, 4⟩,
    next_token_scores := [5, 0] }

/-- The second step, after `RunModel`. -/
def runLaterModel : Search Int :=
  { runAfterEos with logits_ := ⟨[1, 1, 2], [5, 0]⟩, next_token_scores := [5, 0] }

/-- The second step, after `NextTokensFromLogits`: token 0 is selected. -/
def runLaterSelected : Search Int :=
  { runLaterModel with next_tokens := [0] }

/-- The second step, after `CheckForEOS`: the pad id replaces the token. -/
def runLaterChecked : Search Int :=
  { runLaterSelected with next_tokens := [7] }

/-- Parameters whose prompt already fills the row: prompt length 1, maximum
length 1. -/
def fullPromptParams : SearchParams := ⟨1, 1, 1, 1, 2, 1, 0⟩

/-- The state the constructor builds from `fullPromptParams` and the prompt
`[0]`. -/
def fullPromptStart : Search Int :=
  { params_ := fullPromptParams, first_run_ := true, logits_ := ⟨[], []⟩,
    sequences_space := [0, 0], sequences_ := ⟨1, 1, 1⟩,
    eos_meet := [false], next_tokens := [0], next_token_scores := [0, 0],
    done_ := false, output_sequences_ := [0] }

/-- A state with one row of four rational scores whose sequence view is
`[1, 2, 1]`. -/
def penaltySearch : Search ℚ :=
  { params_ := ⟨1, 1, 3, 3, 4, 3, 0⟩, first_run_ := false,
    logits_ := ⟨[1, 1, 4], [4, -6, 8, 3]⟩, sequences_space := [1, 2, 1, 0, 0, 0],
    sequences_ := ⟨1, 3, 3⟩, eos_meet := [false], next_tokens := [0],
    next_token_scores := [4, -6, 8, 3], done_ := false, output_sequences_ := [0, 0, 0] }

/-- Parameters of the scenario: batch size 1, prompt length 2, maximum length
5, vocabulary size 5, eos id 4, pad id 0. -/
def scenarioParams : SearchParams := ⟨1, 1, 2, 5, 5, 4, 0⟩

/-- The state the constructor builds from `scenarioParams` and the prompt
`[2, 3]`. -/
def scenarioStart : Search ℚ :=
  { params_ := scenarioParams, first_run_ := true, logits_ := ⟨[], []⟩,
    sequences_space := [2, 3, 0, 0, 0, 0, 0, 0, 0, 0], sequences_ := ⟨1, 2, 5⟩,
    eos_meet := [false], next_tokens := [0], next_token_scores := [0, 0, 0, 0, 0],
    done_ := false, output_sequences_ := [0, 0, 0, 0, 0] }

/-- A first model output consistent with the scenario: shape `(1, 2, 5)`, the
last prompt position holding `[0.1, 0.2, 0.9, 0.05, 0.05]`, the other prompt
position holding `[0, 1, 0, 0, 0]`. -/
def scenarioLogits1 : Logits ℚ :=
  ⟨[1, 2, 5], [0, 1, 0, 0, 0, 1 / 10, 2 / 10, 9 / 10, 5 / 100, 5 / 100]⟩

/-- The second model output of the scenario: shape `(1, 1, 5)`. -/
def scenarioLogits2 : Logits ℚ :=
  ⟨[1, 1, 5], [0, 0, 0, 0, 99 / 100]⟩

/-- The state after the first step of the scenario. -/
def scenarioStep1 : Search ℚ :=
  { scenarioStart with
    first_run_ := false, logits_ := scenarioLogits1,
    next_token_scores := [1 / 10, 2 / 10, 9 / 10, 5 / 100, 5 / 100],
    next_tokens := [1],
    sequences_space := [2, 3, 1, 0, 0, 0, 0, 0, 0, 0], sequences_ := ⟨1, 3, 5⟩ }

/-- The state after the second step of the scenario. -/
def scenarioStep2 : Search ℚ :=
  { scenarioStep1 with
    logits_ := scenarioLogits2,
    next_token_scores := [0, 0, 0, 0, 99 / 100],
    next_tokens := [0], eos_meet := [true],
    sequences_space := [2, 3, 1, 0, 0, 0, 0, 0, 0, 0], sequences_ := ⟨1, 4, 5⟩,
    done_ := true }

/-- The state after `Finalize` in the scenario. -/
def scenarioFinal : Search ℚ :=
  { scenarioStep2 with output_sequences_ := [2, 3, 1, 0, 0] }

/-- Parameters with two beams: two batch elements, prompt length 1, maximum
length 2, seven token ids, eos id 1, pad id 0. -/
def twoBeamParams : SearchParams := ⟨2, 2, 1, 2, 7, 1, 0⟩

/-- The state the constructor builds from `twoBeamParams` and the expanded
prompt `[5, 5, 6, 6]`. -/
def twoBeamStart : Search Int :=
  { params_ := twoBeamParams, first_run_ := true, logits_ := ⟨[], []⟩,
    sequences_space := [5, 0, 5, 0, 6, 0, 6, 0], sequences_ := ⟨2, 1, 2⟩,
    eos_meet := [false, false], next_tokens := [0, 0],
    next_token_scores := [0, 0, 0, 0, 0, 0, 0, 0, 0, 0, 0, 0, 0, 0],
    done_ := false, output_sequences_ := [0, 0, 0, 0] }

/-- The state `Finalize` makes of `twoBeamStart`. -/
def twoBeamFinal : Search Int :=
  { twoBeamStart with output_sequences_ := [5, 0, 5, 0] }

/-- The buffers and tensors the constructor requests, named as in the source. -/
inductive ConstructorBuffer where
  | output_sequences_ | sequences_space | sequence_lengths | eos_meet | next_tokens
  | next_token_scores | next_positions
deriving DecidableEq, Repr

/-- The ways the constructor can abort: an external allocation (`CreateTensor`,
`AllocateBuffer`) fails, a `SafeInt` product does not fit, or a bounds-checked
access of `SetSequence` is out of range. -/
inductive ConstructorFailure where
  | allocation | overflow | prompt
deriving DecidableEq, Repr

/-- The outcome of the constructor: it aborts, or it builds a state. -/
inductive ConstructorOutcome (α : Type) where
  | failed (why : ConstructorFailure)
  | built (s : Search α)
deriving DecidableEq, Repr

/-- The state of an outcome, if one was built. -/
def ConstructorOutcome.state? {α : Type} : ConstructorOutcome α → Option (Search α)
  | .failed _ => none
  | .built s => some s

/-- Consecutive external allocation requests: each is made in turn and, when it
succeeds, added to the list of allocations made; the first request that fails
ends the sequence (the flag is then `false`). Whether a request succeeds is
decided by `allocate`, which stands for the external allocator. -/
def allocateAll (allocate : ConstructorBuffer → Nat → Bool) :
    List (ConstructorBuffer × Nat) → List (ConstructorBuffer × Nat) →
      List (ConstructorBuffer × Nat) × Bool
  | [], made => (made, true)
  | request :: rest, made =>
    if allocate request.1 request.2 then allocateAll allocate rest (made ++ [request])
    else (made, false)

/-- The constructor `Search::Search` once more, statement by statement, now
also recording the allocations made before it returns or aborts, and with the
external allocations (`CreateTensor`, `AllocateBuffer`: absent from the
source) allowed to fail as `allocate` decides. Line 9 creates the output
tensor; line 14 forms `2 * batch_size * max_length` for the sequences buffer;
lines 18 to 22 allocate three buffers of `batch_size` entries; line 25 forms
`batch_size * vocab_size` for the score buffer; line 27 allocates the
positions; line 38 installs the prompt. With every allocation succeeding the
state built is that of `Search.new` (`newLogged_state`). -/
def Search.newLogged {α : Type} [Zero α] (allocate : ConstructorBuffer → Nat → Bool)
    (params : SearchParams) (expanded_input_ids : List Int) :
    List (ConstructorBuffer × Nat) × ConstructorOutcome α :=
  match allocateAll allocate
      [(.output_sequences_, params.batch_size * params.max_length)] [] with
  | (made0, false) => (made0, .failed .allocation)
  | (made0, true) =>
    match safeMul 2 params.batch_size with
    | none => (made0, .failed .overflow)
    | some two_b =>
      match safeMul two_b params.max_length with
      | none => (made0, .failed .overflow)
      | some sequences_size =>
        match allocateAll allocate
            [(.sequences_space, sequences_size), (.sequence_lengths, params.batch_size),
             (.eos_meet, params.batch_size), (.next_tokens, params.batch_size)] made0 with
        | (made1, false) => (made1, .failed .allocation)
        | (made1, true) =>
          match safeMul params.batch_size params.vocab_size with
          | none => (made1, .failed .overflow)
          | some next_token_size =>
            match allocateAll allocate
                [(.next_token_scores, next_token_size),
                 (.next_positions, params.batch_size)] made1 with
            | (made2, false) => (made2, .failed .allocation)
            | (made2, true) =>
              match Search.SetSequence
                  ({ params_ := params
                     first_run_ := true
                     logits_ := ⟨[], []⟩
                     sequences_space := List.replicate sequences_size 0
                     sequences_ := Sequences.Init params.batch_size params.sequence_length
                       params.max_length
                     eos_meet := List.replicate params.batch_size false
                     next_tokens := List.replicate params.batch_size 0
                     next_token_scores := List.replicate next_token_size 0
                     done_ := false
                     output_sequences_ :=
                       List.replicate (params.batch_size * params.max_length) 0 } : Search α)
                  expanded_input_ids with
              | none => (made2, .failed .prompt)
              | some s => (made2, .built s)

/-- The function `StaticBuffer::GetOrCreateTensor` once more, with the external
`OrtValue::CreateTensor` (absent from the source) as a parameter that may
fail: the result holds what `CreateTensor` returns (`none` when it fails)
together with the buffer and the allocator as the call leaves them. On the
first call `Alloc` has been called and `buffer_`, `bytes_` assigned (lines 14
and 15) before `CreateTensor` runs (line 16). With a `CreateTensor` that
always returns the view this is `GetOrCreateTensor`
(`GetOrCreateTensorWith_view`). -/
def StaticBuffer.GetOrCreateTensorWith
    (createTensor : Nat → Nat → List Int → ONNXTensorElementDataType → Option OrtValue)
    (sb : StaticBuffer) (allocator_ : Allocator)
    (shape : List Int) (type : ONNXTensorElementDataType) :
    Option (Option OrtValue × StaticBuffer × Allocator) :=
  match StaticBuffer.GetElementSize type with
  | none => none
  | some element_size =>
    let new_bytes := (element_size * StaticBuffer.GetNumElements shape) % 2 ^ 64
    if sb.buffer_ = 0 then
      let (block, allocator1) := allocator_.Alloc new_bytes
      some (createTensor block new_bytes shape type, ⟨block, new_bytes⟩, allocator1)
    else if new_bytes > sb.bytes_ then
      some (createTensor sb.buffer_ new_bytes shape type, sb, allocator_)
    else
      some (createTensor sb.buffer_ new_bytes shape type, sb, allocator_)

/-- Parameters with two rows and a prompt of two tokens: batch size 2, one
beam, prompt length 2, maximum length 3, two token ids, eos id 9, pad id 0. -/
def twoPositionParams : SearchParams := ⟨2, 1, 2, 3, 2, 9, 0⟩

/-- The state the constructor builds from `twoPositionParams` and the prompt
`[0, 0, 0, 0]`. -/
def twoPositionStart : Search Int :=
  { params_ := twoPositionParams, first_run_ := true, logits_ := ⟨[], []⟩,
    sequences_space := [0, 0, 0, 0, 0, 0, 0, 0, 0, 0, 0, 0], sequences_ := ⟨2, 2, 3⟩,
    eos_meet := [false, false], next_tokens := [0, 0],
    next_token_scores := [0, 0, 0, 0], done_ := false,
    output_sequences_ := [0, 0, 0, 0, 0, 0] }

/-- A first model output of shape `(2, 2, 2)`: row 0 holds `[0, 1]` then
`[1, 0]`, row 1 holds `[1, 0]` then `[0, 1]`. -/
def twoPositionLogits : Logits Int := ⟨[2, 2, 2], [0, 1, 1, 0, 1, 0, 0, 1]⟩

/-- The state after `RunModel`: the score rows are the last positions,
`[1, 0]` and `[0, 1]`. -/
def twoPositionScored : Search Int :=
  { twoPositionStart with
    first_run_ := false, logits_ := twoPositionLogits, next_token_scores := [1, 0, 0, 1] }

/-! ## Theorems: token selection -/

theorem bestTokenLoop_spec {α : Type} [LinearOrder α] (logits_data : List α)
    (base vocab_size : Nat) (hlen : base + vocab_size ≤ logits_data.length) :
    ∀ (remaining token best_token : Nat) (best_score : α),
      token + remaining = vocab_size → best_token < token →
      logits_data[base + best_token]? = some best_score →
      (∀ u, u < token → ∃ x, logits_data[base + u]? = some x ∧ x ≤ best_score) →
      (∀ u, u < best_token → ∃ x, logits_data[base + u]? = some x ∧ x < best_score) →
      ∃ t, bestTokenLoop logits_data base remaining token best_token best_score = some t ∧
        IsLeastArgmax logits_data base vocab_size t := by
  intro remaining
  induction remaining with
  | zero =>
    intro token best_token best_score htok hbt hbs hle hlt
    refine ⟨best_token, rfl, by omega, best_score, hbs, ?_, hlt⟩
    intro u hu
    exact hle u (by omega)
  | succ n ih =>
    intro token best_token best_score htok hbt hbs hle hlt
    have hin : base + token < logits_data.length := by omega
    obtain ⟨x, hx⟩ : ∃ x, logits_data[base + token]? = some x :=
      ⟨logits_data[base + token], List.getElem?_eq_getElem hin⟩
    simp only [bestTokenLoop, hx]
    by_cases hgt : x > best_score
    · rw [if_pos hgt]
      apply ih (token + 1) token x (by omega) (by omega) hx
      · intro u hu
        rcases Nat.lt_succ_iff_lt_or_eq.mp hu with h | h
        · obtain ⟨y, hy, hyle⟩ := hle u h
          exact ⟨y, hy, le_trans hyle (le_of_lt hgt)⟩
        · subst h
          exact ⟨x, hx, le_refl x⟩
      · intro u hu
        obtain ⟨y, hy, hyle⟩ := hle u hu
        exact ⟨y, hy, lt_of_le_of_lt hyle hgt⟩
    · rw [if_neg hgt]
      apply ih (token + 1) best_token best_score (by omega) (by omega) hbs
      · intro u hu
        rcases Nat.lt_succ_iff_lt_or_eq.mp hu with h | h
        · exact hle u h
        · subst h
          exact ⟨x, hx, not_lt.mp hgt⟩
      · exact hlt

theorem bestToken_spec {α : Type} [LinearOrder α] (logits_data : List α)
    (base vocab_size : Nat) (hV : 1 ≤ vocab_size)
    (hlen : base + vocab_size ≤ logits_data.length) :
    ∃ t, bestToken logits_data base vocab_size = some t ∧
      IsLeastArgmax logits_data base vocab_size t := by
  have hin : base < logits_data.length := by omega
  have h0 : logits_data[base]? = some logits_data[base] := List.getElem?_eq_getElem hin
  simp only [bestToken, h0]
  apply bestTokenLoop_spec logits_data base vocab_size hlen (vocab_size - 1) 1 0
    logits_data[base] (by omega) (by omega) (by simp)
  · intro u hu
    have : u = 0 := by omega
    subst this
    exact ⟨logits_data[base], by simp, le_refl _⟩
  · intro u hu
    omega

theorem nextTokensLoop_spec {α : Type} [LinearOrder α] (logits_data : List α)
    (vocab_size : Nat) (hV : 1 ≤ vocab_size) :
    ∀ (remaining i : Nat) (next_tokens : List Int),
      (i + remaining) * vocab_size ≤ logits_data.length →
      i + remaining ≤ next_tokens.length →
      ∃ out, nextTokensLoop logits_data vocab_size remaining i (i * vocab_size) next_tokens
          = some out ∧
        out.length = next_tokens.length ∧
        (∀ k, k < i → out[k]? = next_tokens[k]?) ∧
        (∀ k, i + remaining ≤ k → out[k]? = next_tokens[k]?) ∧
        (∀ k, i ≤ k → k < i + remaining →
          ∃ t : Nat, out[k]? = some (t : Int) ∧
            IsLeastArgmax logits_data (k * vocab_size) vocab_size t) := by
  intro remaining
  induction remaining with
  | zero =>
    intro i next_tokens _ _
    exact ⟨next_tokens, rfl, rfl, fun _ _ => rfl, fun _ _ => rfl, fun k h1 h2 => by omega⟩
  | succ n ih =>
    intro i next_tokens hdata hnt
    have hrow : i * vocab_size + vocab_size ≤ logits_data.length := by
      have : (i + 1) * vocab_size ≤ (i + (n + 1)) * vocab_size :=
        Nat.mul_le_mul_right _ (by omega)
      rw [Nat.add_mul, Nat.one_mul] at this
      omega
    obtain ⟨t, ht, hspec⟩ := bestToken_spec logits_data (i * vocab_size) vocab_size hV hrow
    have hi : i < next_tokens.length := by omega
    have hbase : i * vocab_size + vocab_size = (i + 1) * vocab_size := by
      rw [Nat.add_mul, Nat.one_mul]
    simp only [nextTokensLoop, ht, if_pos hi, hbase]
    obtain ⟨out, hout, hlen, hlo, hhi, hmid⟩ :=
      ih (i + 1) (next_tokens.set i (t : Int)) (by rw [show i + 1 + n = i + (n + 1) by omega]; exact hdata)
        (by rw [List.length_set]; omega)
    refine ⟨out, hout, by rw [hlen, List.length_set], ?_, ?_, ?_⟩
    · intro k hk
      rw [hlo k (by omega), List.getElem?_set_ne (by omega)]
    · intro k hk
      rw [hhi k (by omega), List.getElem?_set_ne (by omega)]
    · intro k hk1 hk2
      rcases Nat.eq_or_lt_of_le hk1 with h | h
      · subst h
        refine ⟨t, ?_, hspec⟩
        rw [hlo i (by omega), List.getElem?_set_self hi]
      · exact hmid k (by omega) (by omega)

/-- The scan of `NextTokensFromLogits`, as a lemma. For `vocab_size ≥ 1` and
any batch size it succeeds (the scanned data holds `batch_size` windows,
`next_tokens` has a slot per row) and stores in `next_tokens[i]` the least
index of a maximal entry of the window of `vocab_size` entries that starts at
`i * vocab_size` in the data of `model_.logits_`. That window is not, in
general, row `i` of the score buffer. Nothing else in the state changes. -/
theorem NextTokensFromLogits_least_argmax {α : Type} [LinearOrder α] (s : Search α)
    (hV : 1 ≤ s.params_.vocab_size)
    (hdata : s.params_.batch_size * s.params_.vocab_size ≤ s.logits_.data.length)
    (hnt : s.params_.batch_size ≤ s.next_tokens.length) :
    ∃ s', s.NextTokensFromLogits = some s' ∧
      s' = { s with next_tokens := s'.next_tokens } ∧
      s'.next_tokens.length = s.next_tokens.length ∧
      ∀ i, i < s.params_.batch_size →
        ∃ (t : Nat) (score_t : α), t < s.params_.vocab_size ∧
          s'.next_tokens[i]? = some (t : Int) ∧
          s.logits_.data[i * s.params_.vocab_size + t]? = some score_t ∧
          (∀ u, u < s.params_.vocab_size →
            ∃ x, s.logits_.data[i * s.params_.vocab_size + u]? = some x ∧ x ≤ score_t) ∧
          (∀ u, u < t →
            ∃ x, s.logits_.data[i * s.params_.vocab_size + u]? = some x ∧ x < score_t) ∧
          ((∀ u, u < s.params_.vocab_size →
              s.logits_.data[i * s.params_.vocab_size + u]?
                = s.logits_.data[i * s.params_.vocab_size]?) → t = 0) := by
  obtain ⟨out, hout, hlen, -, -, hmid⟩ :=
    nextTokensLoop_spec s.logits_.data s.params_.vocab_size hV s.params_.batch_size 0
      s.next_tokens (by simpa using hdata) (by simpa using hnt)
  simp only [Nat.zero_mul] at hout
  refine ⟨{ s with next_tokens := out }, ?_, rfl, hlen, ?_⟩
  · simp only [Search.NextTokensFromLogits, hout]
  · intro i hi
    obtain ⟨t, ht, htV, score_t, hst, hmax, hleast⟩ := hmid i (Nat.zero_le i) (by simpa using hi)
    refine ⟨t, score_t, htV, ht, hst, hmax, hleast, ?_⟩
    intro hall
    by_contra hne
    obtain ⟨x, hx, hxlt⟩ := hleast 0 (Nat.pos_of_ne_zero hne)
    have h1 := hall t htV
    rw [hst] at h1
    simp only [Nat.add_zero] at hx
    rw [hx] at h1
    have : score_t = x := by injection h1
    subst this
    exact lt_irrefl _ hxlt

/-- A concrete instance of the lemma on the scan: two windows of three integer
scores; the first has its maximum twice (indices 1 and 2), the second is
constant. -/
theorem NextTokensFromLogits_least_argmax_witness :
    ∃ s', Search.NextTokensFromLogits twoRowSearch = some s' ∧ s'.next_tokens = [1, 0] := by
  obtain ⟨s', hs', -, -, -⟩ := NextTokensFromLogits_least_argmax twoRowSearch
    (by decide) (by decide) (by decide)
  refine ⟨s', hs', ?_⟩
  have h : Search.NextTokensFromLogits twoRowSearch
      = some { twoRowSearch with next_tokens := [1, 0] } := by decide
  rw [h] at hs'
  injection hs' with hs'
  rw [← hs']

/-! ## Theorems: static buffer -/

theorem calls_reuse_aux (p b0 : Nat) (a1 : Allocator) (hp : p ≠ 0) :
    ∀ (requests : List (List Int × ONNXTensorElementDataType)),
      (∀ r, r ∈ requests → ∃ e, StaticBuffer.GetElementSize r.2 = some e) →
      ∃ later, StaticBuffer.calls ⟨p, b0⟩ a1 requests = some later ∧
        later.length = requests.length ∧
        ∀ (k : Nat) (r : List Int × ONNXTensorElementDataType), requests[k]? = some r →
          ∃ e, StaticBuffer.GetElementSize r.2 = some e ∧
            later[k]? = some
              ((⟨p, (e * StaticBuffer.GetNumElements r.1) % 2 ^ 64, r.1, r.2⟩ : OrtValue),
                (⟨p, b0⟩ : StaticBuffer), a1) := by
  intro requests
  induction requests with
  | nil =>
    intro _
    exact ⟨[], rfl, rfl, fun k r h => by simp at h⟩
  | cons r rest ih =>
    intro hsup
    obtain ⟨shape, type⟩ := r
    obtain ⟨e, he⟩ := hsup (shape, type) (List.mem_cons_self _ _)
    obtain ⟨later, hlater, hlen, hall⟩ := ih (fun r hr => hsup r (List.mem_cons_of_mem _ hr))
    have hcall : StaticBuffer.GetOrCreateTensor ⟨p, b0⟩ a1 shape type
        = some ((⟨p, (e * StaticBuffer.GetNumElements shape) % 2 ^ 64, shape, type⟩ : OrtValue),
            (⟨p, b0⟩ : StaticBuffer), a1) := by
      simp only [StaticBuffer.GetOrCreateTensor, he, if_neg hp]
      split <;> rfl
    refine ⟨((⟨p, (e * StaticBuffer.GetNumElements shape) % 2 ^ 64, shape, type⟩ : OrtValue),
        (⟨p, b0⟩ : StaticBuffer), a1) :: later, ?_, by simp [hlen], ?_⟩
    · simp only [StaticBuffer.calls, hcall, hlater]
    · intro k r hr
      cases k with
      | zero =>
        simp only [List.getElem?_cons_zero, Option.some.injEq] at hr
        subst hr
        exact ⟨e, he, by simp⟩
      | succ k =>
        simp only [List.getElem?_cons_succ] at hr
        obtain ⟨e', he', hk⟩ := hall k r hr
        exact ⟨e', he', by simpa using hk⟩

/-- Claim C4. In a sequence of `GetOrCreateTensor` calls on one empty buffer in
which every request has a supported element type and every request after the
first needs at most as many bytes as the first (bytes as the call computes
them), and the allocator hands out a non-null block: `Alloc` is invoked exactly
once, by the first call, for the first request's byte count; after every later
call the recorded block and capacity (and the allocator's log) are those left by
the first call; and every later call returns a view that starts at that block
and spans exactly the bytes of its own request, with the requested shape and
type. -/
theorem GetOrCreateTensor_reuse (a : Allocator) (shape0 : List Int)
    (type0 : ONNXTensorElementDataType) (e0 : Nat)
    (requests : List (List Int × ONNXTensorElementDataType))
    (h0 : StaticBuffer.GetElementSize type0 = some e0)
    (hblock : (a.Alloc ((e0 * StaticBuffer.GetNumElements shape0) % 2 ^ 64)).1 ≠ 0)
    (hle : ∀ r, r ∈ requests → ∃ e, StaticBuffer.GetElementSize r.2 = some e ∧
      (e * StaticBuffer.GetNumElements r.1) % 2 ^ 64
        ≤ (e0 * StaticBuffer.GetNumElements shape0) % 2 ^ 64) :
    ∃ first later,
      StaticBuffer.calls ⟨0, 0⟩ a ((shape0, type0) :: requests) = some (first :: later) ∧
      first.1 = ⟨(a.Alloc ((e0 * StaticBuffer.GetNumElements shape0) % 2 ^ 64)).1,
        (e0 * StaticBuffer.GetNumElements shape0) % 2 ^ 64, shape0, type0⟩ ∧
      first.2.1 = ⟨(a.Alloc ((e0 * StaticBuffer.GetNumElements shape0) % 2 ^ 64)).1,
        (e0 * StaticBuffer.GetNumElements shape0) % 2 ^ 64⟩ ∧
      first.2.2.allocs = a.allocs ++ [(e0 * StaticBuffer.GetNumElements shape0) % 2 ^ 64] ∧
      later.length = requests.length ∧
      ∀ (k : Nat) (r : List Int × ONNXTensorElementDataType), requests[k]? = some r →
        ∃ (e : Nat) (view : OrtValue), StaticBuffer.GetElementSize r.2 = some e ∧
          later[k]? = some (view, first.2.1, first.2.2) ∧
          view = ⟨first.2.1.buffer_, (e * StaticBuffer.GetNumElements r.1) % 2 ^ 64, r.1, r.2⟩ := by
  obtain ⟨later, hlater, hlen, hall⟩ :=
    calls_reuse_aux (a.Alloc ((e0 * StaticBuffer.GetNumElements shape0) % 2 ^ 64)).1
      ((e0 * StaticBuffer.GetNumElements shape0) % 2 ^ 64)
      (a.Alloc ((e0 * StaticBuffer.GetNumElements shape0) % 2 ^ 64)).2 hblock requests
      (fun r hr => (hle r hr).imp fun e he => he.1)
  refine ⟨((⟨(a.Alloc ((e0 * StaticBuffer.GetNumElements shape0) % 2 ^ 64)).1,
      (e0 * StaticBuffer.GetNumElements shape0) % 2 ^ 64, shape0, type0⟩ : OrtValue),
      (⟨(a.Alloc ((e0 * StaticBuffer.GetNumElements shape0) % 2 ^ 64)).1,
        (e0 * StaticBuffer.GetNumElements shape0) % 2 ^ 64⟩ : StaticBuffer),
      (a.Alloc ((e0 * StaticBuffer.GetNumElements shape0) % 2 ^ 64)).2), later, ?_, rfl, rfl, rfl,
      hlen, ?_⟩
  · simp only [StaticBuffer.calls, StaticBuffer.GetOrCreateTensor, h0, if_pos, hlater]
  · intro k r hr
    obtain ⟨e, he, hk⟩ := hall k r hr
    exact ⟨e, _, he, hk, rfl⟩

/-- A concrete instance of C4: a first request of 2 × 3 floats (24 bytes), then
requests of 6 int32 (24 bytes) and 2 int64 (16 bytes). -/
theorem GetOrCreateTensor_reuse_witness :
    ∃ first later,
      StaticBuffer.calls ⟨0, 0⟩ ⟨fun n _ => 4096 * (n + 1), []⟩
        [([2, 3], .FLOAT), ([6], .INT32), ([2], .INT64)] = some (first :: later) ∧
      first.2.2.allocs = [24] ∧
      later.map (fun r => (r.1.p_data, r.1.p_data_len, r.2.1, r.2.2.allocs))
        = [(4096, 24, ⟨4096, 24⟩, [24]), (4096, 16, ⟨4096, 24⟩, [24])] := by
  obtain ⟨first, later, hcalls, -, -, hallocs, -, -⟩ :=
    GetOrCreateTensor_reuse ⟨fun n _ => 4096 * (n + 1), []⟩ [2, 3] .FLOAT 4
      [([6], .INT32), ([2], .INT64)] rfl (by decide)
      (by
        intro r hr
        simp only [List.mem_cons, List.mem_singleton, List.not_mem_nil, or_false] at hr
        rcases hr with rfl | rfl
        · exact ⟨4, rfl, by decide⟩
        · exact ⟨8, rfl, by decide⟩)
  refine ⟨first, later, hcalls, hallocs, ?_⟩
  simp only [StaticBuffer.calls, StaticBuffer.GetOrCreateTensor, StaticBuffer.GetElementSize,
    Allocator.Alloc] at hcalls
  simp at hcalls
  obtain ⟨-, rfl⟩ := hcalls
  decide

/-- Claim C3, the code at an oversized request. A buffer that holds a 4-byte
block, left by a first request for one float, is asked for two floats (8 bytes):
the call does not fail; it returns a view of 8 bytes over the 4-byte block and
leaves block and capacity as they were. -/
theorem GetOrCreateTensor_oversized_returns_view :
    (StaticBuffer.calls ⟨0, 0⟩ ⟨fun _ _ => 4096, []⟩ [([1], .FLOAT), ([2], .FLOAT)]).map
        (fun results => results.map fun r => (r.1, r.2.1, r.2.2.allocs))
      = some [(⟨4096, 4, [1], .FLOAT⟩, ⟨4096, 4⟩, [4]),
              (⟨4096, 8, [2], .FLOAT⟩, ⟨4096, 4⟩, [4])] := by
  decide

/-! ## Theorems: end-of-sequence bookkeeping -/

theorem checkForEOSLoop_spec (eos pad : Int) :
    ∀ (remaining batch_id : Nat) (nt : List Int) (em : List Bool),
      batch_id + remaining ≤ nt.length → batch_id + remaining ≤ em.length →
      ∃ nt' em', checkForEOSLoop eos pad remaining batch_id nt em = some (nt', em') ∧
        nt'.length = nt.length ∧ em'.length = em.length ∧
        (∀ r, (r < batch_id ∨ batch_id + remaining ≤ r) →
          nt'[r]? = nt[r]? ∧ em'[r]? = em[r]?) ∧
        (∀ (r : Nat) (token : Int) (flag : Bool), batch_id ≤ r → r < batch_id + remaining →
          nt[r]? = some token → em[r]? = some flag →
          em'[r]? = some (decide (token = eos) || flag) ∧
          nt'[r]? = some (if (decide (token = eos) || flag) = true then pad else token)) := by
  intro remaining
  induction remaining with
  | zero =>
    intro batch_id nt em _ _
    exact ⟨nt, em, rfl, rfl, rfl, fun _ _ => ⟨rfl, rfl⟩, fun r _ _ h1 h2 => by omega⟩
  | succ n ih =>
    intro b nt em hnt hem
    have hb1 : b < nt.length := by omega
    have hb2 : b < em.length := by omega
    have hnb : nt[b]? = some nt[b] := List.getElem?_eq_getElem hb1
    have heb : em[b]? = some em[b] := List.getElem?_eq_getElem hb2
    by_cases hc : nt[b] = eos ∨ em[b] = true
    · obtain ⟨nt', em', hloop, hl1, hl2, hout, hin⟩ :=
        ih (b + 1) (nt.set b pad) (em.set b true) (by rw [List.length_set]; omega)
          (by rw [List.length_set]; omega)
      refine ⟨nt', em', ?_, by rw [hl1, List.length_set], by rw [hl2, List.length_set], ?_, ?_⟩
      · simp only [checkForEOSLoop, hnb, heb, if_pos hc, hloop]
      · intro r hr
        obtain ⟨h1, h2⟩ := hout r (by omega)
        rw [h1, h2, List.getElem?_set_ne (by omega), List.getElem?_set_ne (by omega)]
        exact ⟨rfl, rfl⟩
      · intro r token flag hr1 hr2 htok hflag
        rcases Nat.eq_or_lt_of_le hr1 with h | h
        · subst h
          obtain ⟨h1, h2⟩ := hout b (by omega)
          rw [h1, h2, List.getElem?_set_self hb1, List.getElem?_set_self hb2]
          rw [hnb] at htok
          rw [heb] at hflag
          injection htok with htok
          injection hflag with hflag
          rw [htok, hflag] at hc
          have hd : (decide (token = eos) || flag) = true := by
            rcases hc with h | h
            · simp [h]
            · simp [h]
          rw [hd]
          simp
        · apply hin r token flag (by omega) (by omega)
          · rw [List.getElem?_set_ne (by omega)]; exact htok
          · rw [List.getElem?_set_ne (by omega)]; exact hflag
    · obtain ⟨nt', em', hloop, hl1, hl2, hout, hin⟩ := ih (b + 1) nt em (by omega) (by omega)
      refine ⟨nt', em', ?_, hl1, hl2, ?_, ?_⟩
      · simp only [checkForEOSLoop, hnb, heb, if_neg hc, hloop]
      · intro r hr
        exact hout r (by omega)
      · intro r token flag hr1 hr2 htok hflag
        rcases Nat.eq_or_lt_of_le hr1 with h | h
        · subst h
          obtain ⟨h1, h2⟩ := hout b (by omega)
          rw [h1, h2]
          rw [hnb] at htok
          rw [heb] at hflag
          injection htok with htok
          injection hflag with hflag
          rw [htok, hflag] at hc
          have hd : (decide (token = eos) || flag) = false := by
            rcases Bool.eq_false_or_eq_true flag with hf | hf
            · exact absurd (Or.inr hf) hc
            · have : ¬ token = eos := fun h => hc (Or.inl h)
              simp [hf, this]
          rw [hd, hnb, heb, htok, hflag]
          rw [hd] at *
          rcases Bool.eq_false_or_eq_true flag with hf | hf
          · exact absurd (Or.inr hf) hc
          · simp [hf]
        · exact hin r token flag (by omega) (by omega) htok hflag

/-- Claim C5. In a state whose flag vector has one entry per selected token,
`CheckForEOS` succeeds and, for every row `r`, leaves
`eos_meet'[r] = (next_tokens[r] == eos_token_id || eos_meet[r])` and
`next_tokens'[r] = pad_token_id` if `eos_meet'[r]`, else `next_tokens[r]`.
So a set flag stays set, and a row whose token is not the eos id and whose flag
is clear keeps both its token and its clear flag. -/
theorem CheckForEOS_rows {α : Type} (s : Search α)
    (hlen : s.eos_meet.length = s.next_tokens.length) :
    ∃ s', s.CheckForEOS = some s' ∧
      s'.next_tokens.length = s.next_tokens.length ∧
      s'.eos_meet.length = s.eos_meet.length ∧
      ∀ (r : Nat) (token : Int) (flag : Bool),
        s.next_tokens[r]? = some token → s.eos_meet[r]? = some flag →
        s'.eos_meet[r]? = some (decide (token = s.params_.eos_token_id) || flag) ∧
        s'.next_tokens[r]? =
          some (if (decide (token = s.params_.eos_token_id) || flag) = true
            then s.params_.pad_token_id else token) ∧
        (flag = true → s'.eos_meet[r]? = some true) ∧
        (token ≠ s.params_.eos_token_id → flag = false →
          s'.eos_meet[r]? = some false ∧ s'.next_tokens[r]? = some token) := by
  obtain ⟨nt', em', hloop, hl1, hl2, -, hin⟩ :=
    checkForEOSLoop_spec s.params_.eos_token_id s.params_.pad_token_id s.next_tokens.length 0
      s.next_tokens s.eos_meet (by omega) (by omega)
  refine ⟨{ s with
      next_tokens := nt'
      eos_meet := em'
      done_ := if firstUnfinished em' em'.length 0 = em'.length then true else s.done_ },
    ?_, hl1, hl2, ?_⟩
  · simp only [Search.CheckForEOS, hloop]
  · intro r token flag htok hflag
    have hr : r < s.next_tokens.length := by
      by_contra h
      rw [List.getElem?_eq_none (by omega)] at htok
      exact Option.noConfusion htok
    obtain ⟨h1, h2⟩ := hin r token flag (Nat.zero_le r) (by omega) htok hflag
    refine ⟨h1, h2, ?_, ?_⟩
    · intro hf
      rw [h1, hf, Bool.or_true]
    · intro hne hf
      have hd : (decide (token = s.params_.eos_token_id) || flag) = false := by
        simp [hne, hf]
      rw [h1, h2, hd]
      simp

/-- A concrete instance of C5: row 0 selected the eos id 9, row 1 did not. -/
theorem CheckForEOS_rows_witness :
    ∃ s', Search.CheckForEOS { twoRowSearch with next_tokens := [9, 2] } = some s' ∧
      s'.next_tokens = [0, 2] ∧ s'.eos_meet = [true, false] := by
  obtain ⟨s', hs', -, -, -⟩ :=
    CheckForEOS_rows { twoRowSearch with next_tokens := [9, 2] } (by decide)
  refine ⟨s', hs', ?_⟩
  have h : Search.CheckForEOS { twoRowSearch with next_tokens := [9, 2] }
      = some { twoRowSearch with next_tokens := [0, 2], eos_meet := [true, false] } := by
    decide
  rw [h] at hs'
  injection hs' with hs'
  rw [← hs']
  exact ⟨rfl, rfl⟩

/-! ## Theorems: spans -/

theorem Span.read_length {α : Type} (sp : Span) (buffer : List α)
    (h : sp.offset + sp.size ≤ buffer.length) : (sp.read buffer).length = sp.size := by
  simp only [Span.read, List.length_take, List.length_drop]
  omega

theorem Span.read_getElem? {α : Type} (sp : Span) (buffer : List α) (k : Nat)
    (hk : k < sp.size) : (sp.read buffer)[k]? = buffer[sp.offset + k]? := by
  simp only [Span.read, List.getElem?_take, if_pos hk, List.getElem?_drop]

theorem copy_spec {α : Type} (source : List α) (target : Span) (buffer : List α)
    (h1 : source.length ≤ target.size) (h2 : target.offset + target.size ≤ buffer.length) :
    ∃ out, copy source target buffer = some out ∧ out.length = buffer.length ∧
      (∀ k, k < source.length → out[target.offset + k]? = source[k]?) ∧
      (∀ k, (k < target.offset ∨ target.offset + source.length ≤ k) → out[k]? = buffer[k]?) := by
  refine ⟨buffer.take target.offset ++ source ++ buffer.drop (target.offset + source.length),
    by simp only [copy, if_pos h1], ?_, ?_, ?_⟩
  · simp only [List.length_append, List.length_take, List.length_drop]
    omega
  · intro k hk
    have hlt : (List.take target.offset buffer).length = target.offset := by
      rw [List.length_take]; omega
    rw [List.append_assoc, List.getElem?_append_right (by omega), hlt,
      List.getElem?_append_left (by omega)]
    congr 1
    omega
  · intro k hk
    have hlt : (List.take target.offset buffer).length = target.offset := by
      rw [List.length_take]; omega
    rcases hk with hk | hk
    · rw [List.append_assoc, List.getElem?_append_left (by omega), List.getElem?_take,
        if_pos hk]
    · rw [List.append_assoc, List.getElem?_append_right (by omega), hlt,
        List.getElem?_append_right (by omega), List.getElem?_drop]
      congr 1
      omega

/-! ## Theorems: extraction of the last position -/

theorem runModelLoop_spec {α : Type} (logits_data : List α) (V L1 : Nat) :
    ∀ (remaining i : Nat) (scores : List α),
      (i + remaining) * ((L1 + 1) * V) ≤ logits_data.length →
      (i + remaining) * V ≤ scores.length →
      ∃ out, runModelLoop logits_data V (L1 + 1) remaining i (L1 * V + i * ((L1 + 1) * V)) scores
          = some out ∧
        out.length = scores.length ∧
        (∀ k, (k < i * V ∨ (i + remaining) * V ≤ k) → out[k]? = scores[k]?) ∧
        (∀ r v, i ≤ r → r < i + remaining → v < V →
          ∃ x, logits_data[L1 * V + r * ((L1 + 1) * V) + v]? = some x ∧
            out[r * V + v]? = some x) := by
  intro remaining
  induction remaining with
  | zero =>
    intro i scores _ _
    exact ⟨scores, rfl, rfl, fun _ _ => rfl, fun r v h1 h2 => by omega⟩
  | succ n ih =>
    intro i scores hdata hscores
    have e1 : (i + (n + 1)) * ((L1 + 1) * V) = (i + 1 + n) * ((L1 + 1) * V) := by
      rw [show i + (n + 1) = i + 1 + n by omega]
    have e2 : (i + (n + 1)) * V = (i + 1 + n) * V := by
      rw [show i + (n + 1) = i + 1 + n by omega]
    have e3 : (i + 1 + n) * V = i * V + V + n * V := by ring
    have e4 : (i + 1 + n) * ((L1 + 1) * V) = i * ((L1 + 1) * V) + L1 * V + V + n * ((L1 + 1) * V) := by
      ring
    have e5 : (i + 1) * ((L1 + 1) * V) = i * ((L1 + 1) * V) + (L1 + 1) * V := by ring
    have e6 : (L1 + 1) * V = L1 * V + V := by ring
    have e7 : (i + 1) * V = i * V + V := by ring
    have hsrc : L1 * V + i * ((L1 + 1) * V) + V ≤ logits_data.length := by omega
    have htgt : i * V + V ≤ scores.length := by omega
    obtain ⟨mid, hmid, hmlen, hmin, hmout⟩ :=
      copy_spec (Span.read ⟨L1 * V + i * ((L1 + 1) * V), V⟩ logits_data) ⟨i * V, V⟩ scores
        (by rw [Span.read_length _ _ hsrc]) htgt
    have hrl : (Span.read ⟨L1 * V + i * ((L1 + 1) * V), V⟩ logits_data).length = V :=
      Span.read_length _ _ hsrc
    obtain ⟨out, hout, holen, hoout, hoin⟩ := ih (i + 1) mid (by omega) (by omega)
    have hcur : L1 * V + i * ((L1 + 1) * V) + (L1 + 1) * V = L1 * V + (i + 1) * ((L1 + 1) * V) := by
      omega
    refine ⟨out, ?_, by rw [holen, hmlen], ?_, ?_⟩
    · simp only [runModelLoop, subspan, if_pos hsrc, if_pos htgt, hmid, hcur, hout]
    · intro k hk
      rw [hoout k (by omega)]
      apply hmout k
      simp only [hrl]
      omega
    · intro r v hr1 hr2 hv
      rcases Nat.eq_or_lt_of_le hr1 with h | h
      · subst h
        have hin : L1 * V + i * ((L1 + 1) * V) + v < logits_data.length := by omega
        refine ⟨logits_data[L1 * V + i * ((L1 + 1) * V) + v], List.getElem?_eq_getElem hin, ?_⟩
        rw [hoout (i * V + v) (by omega)]
        have := hmin v (by omega)
        simp only at this
        rw [this, Span.read_getElem? _ _ _ hv]
        exact List.getElem?_eq_getElem hin
      · exact hoin r v (by omega) (by omega) hv

/-- Claim C9. For a logits tensor of shape `(batch_size, L, vocab_size)` with
`L ≥ 1`, stored row-major, and a score buffer of `batch_size * vocab_size`
entries, `RunModel` succeeds and leaves
`next_token_scores[i * vocab_size + v] = logits[i][L-1][v]`, the entry of the
flat data at `(i * L + (L - 1)) * vocab_size + v`, for every row `i` and every
token `v`: the last of the `L` positions of each row, whatever `L` is. -/
theorem RunModel_last_position {α : Type} (s : Search α) (logits : Logits α) (L : Nat)
    (hL : 1 ≤ L)
    (hshape : logits.shape = [s.params_.batch_size, L, s.params_.vocab_size])
    (hdata : logits.data.length = s.params_.batch_size * L * s.params_.vocab_size)
    (hscores : s.next_token_scores.length = s.params_.batch_size * s.params_.vocab_size) :
    ∃ s', s.RunModel logits = some s' ∧
      s'.logits_ = logits ∧
      s'.next_token_scores.length = s.next_token_scores.length ∧
      ∀ i v, i < s.params_.batch_size → v < s.params_.vocab_size →
        ∃ x, logits.data[(i * L + (L - 1)) * s.params_.vocab_size + v]? = some x ∧
          s'.next_token_scores[i * s.params_.vocab_size + v]? = some x := by
  obtain ⟨L1, rfl⟩ : ∃ L1, L = L1 + 1 := ⟨L - 1, by omega⟩
  obtain ⟨out, hout, holen, -, hoin⟩ :=
    runModelLoop_spec logits.data s.params_.vocab_size L1 s.params_.batch_size 0
      s.next_token_scores
      (by rw [hdata, Nat.zero_add, Nat.mul_assoc])
      (by rw [hscores, Nat.zero_add])
  simp only [Nat.zero_mul, Nat.add_zero] at hout
  refine ⟨{ s with first_run_ := false, logits_ := logits, next_token_scores := out },
    ?_, rfl, holen, ?_⟩
  · simp [Search.RunModel, hshape, hout]
  · intro i v hi hv
    obtain ⟨x, hx1, hx2⟩ := hoin i v (Nat.zero_le i) (by omega) hv
    refine ⟨x, ?_, hx2⟩
    rw [← hx1]
    congr 1
    simp only [Nat.add_sub_cancel]
    ring

/-- A concrete instance of C9: two rows, two positions, three tokens. -/
theorem RunModel_last_position_witness :
    ∃ s', Search.RunModel { twoRowSearch with next_token_scores := [0, 0, 0, 0, 0, 0] }
        ⟨[2, 2, 3], [1, 2, 3, 4, 5, 6, 7, 8, 9, 10, 11, 12]⟩ = some s' ∧
      s'.next_token_scores = [4, 5, 6, 10, 11, 12] := by
  obtain ⟨s', hs', -, -, -⟩ :=
    RunModel_last_position { twoRowSearch with next_token_scores := [0, 0, 0, 0, 0, 0] }
      ⟨[2, 2, 3], [1, 2, 3, 4, 5, 6, 7, 8, 9, 10, 11, 12]⟩ 2 (by decide) (by decide)
      (by decide) (by decide)
  refine ⟨s', hs', ?_⟩
  have h : Search.RunModel { twoRowSearch with next_token_scores := [0, 0, 0, 0, 0, 0] }
        ⟨[2, 2, 3], [1, 2, 3, 4, 5, 6, 7, 8, 9, 10, 11, 12]⟩
      = some { twoRowSearch with
          logits_ := ⟨[2, 2, 3], [1, 2, 3, 4, 5, 6, 7, 8, 9, 10, 11, 12]⟩
          next_token_scores := [4, 5, 6, 10, 11, 12] } := by
    decide
  rw [h] at hs'
  injection hs' with hs'
  rw [← hs']

/-! ## Theorems: what each operation leaves unchanged -/

theorem RunModel_frame {α : Type} (s s' : Search α) (logits : Logits α)
    (h : s.RunModel logits = some s') :
    s' = { s with first_run_ := false, logits_ := logits,
                  next_token_scores := s'.next_token_scores } := by
  simp only [Search.RunModel] at h
  split at h
  · split at h
    · exact Option.noConfusion h
    · split at h
      · exact Option.noConfusion h
      · split at h
        · exact Option.noConfusion h
        · injection h with h
          rw [← h]
  · exact Option.noConfusion h

theorem nextTokensLoop_length {α : Type} [LinearOrder α] (logits_data : List α) (V : Nat) :
    ∀ (remaining i base : Nat) (next_tokens out : List Int),
      nextTokensLoop logits_data V remaining i base next_tokens = some out →
      out.length = next_tokens.length := by
  intro remaining
  induction remaining with
  | zero =>
    intro i base next_tokens out h
    simp only [nextTokensLoop] at h
    injection h with h
    rw [h]
  | succ n ih =>
    intro i base next_tokens out h
    simp only [nextTokensLoop] at h
    split at h
    · exact Option.noConfusion h
    · split at h
      · rw [ih _ _ _ _ h, List.length_set]
      · exact Option.noConfusion h

theorem NextTokensFromLogits_frame {α : Type} [LinearOrder α] (s s' : Search α)
    (h : s.NextTokensFromLogits = some s') :
    s' = { s with next_tokens := s'.next_tokens } ∧
      s'.next_tokens.length = s.next_tokens.length := by
  simp only [Search.NextTokensFromLogits] at h
  split at h
  · exact Option.noConfusion h
  · rename_i out hout
    injection h with h
    rw [← h]
    exact ⟨rfl, nextTokensLoop_length _ _ _ _ _ _ _ hout⟩

theorem firstUnfinished_spec (eos_meet : List Bool) :
    ∀ (remaining batch_id : Nat), batch_id + remaining = eos_meet.length →
      (firstUnfinished eos_meet remaining batch_id = eos_meet.length ↔
        ∀ r, batch_id ≤ r → r < eos_meet.length → eos_meet[r]? = some true) := by
  intro remaining
  induction remaining with
  | zero =>
    intro b hb
    simp only [firstUnfinished]
    constructor
    · intro _ r h1 h2
      omega
    · intro _
      omega
  | succ n ih =>
    intro b hb
    have hlt : b < eos_meet.length := by omega
    have hget : eos_meet[b]? = some eos_meet[b] := List.getElem?_eq_getElem hlt
    rcases Bool.eq_false_or_eq_true eos_meet[b] with ht | hf
    · rw [ht] at hget
      have hrec := ih (b + 1) (by omega)
      simp only [firstUnfinished, hget]
      rw [hrec]
      constructor
      · intro hall r h1 h2
        rcases Nat.eq_or_lt_of_le h1 with h | h
        · subst h
          exact hget
        · exact hall r (by omega) h2
      · intro hall r h1 h2
        exact hall r (by omega) h2
    · rw [hf] at hget
      simp only [firstUnfinished, hget]
      constructor
      · intro h
        omega
      · intro hall
        have := hall b (Nat.le_refl b) hlt
        rw [hget] at this
        exact absurd this (by decide)

theorem CheckForEOS_spec {α : Type} (s s' : Search α)
    (hlen : s.eos_meet.length = s.next_tokens.length) (h : s.CheckForEOS = some s') :
    s' = { s with next_tokens := s'.next_tokens, eos_meet := s'.eos_meet, done_ := s'.done_ } ∧
      s'.next_tokens.length = s.next_tokens.length ∧
      s'.eos_meet.length = s.eos_meet.length ∧
      (s'.done_ = true ↔
        ((∀ r, r < s'.eos_meet.length → s'.eos_meet[r]? = some true) ∨ s.done_ = true)) ∧
      (∀ r : Nat, s.eos_meet[r]? = some true →
        s'.eos_meet[r]? = some true ∧ s'.next_tokens[r]? = some s.params_.pad_token_id) := by
  obtain ⟨nt', em', hloop, hl1, hl2, -, hin⟩ :=
    checkForEOSLoop_spec s.params_.eos_token_id s.params_.pad_token_id s.next_tokens.length 0
      s.next_tokens s.eos_meet (by omega) (by omega)
  simp only [Search.CheckForEOS, hloop] at h
  injection h with h
  rw [← h]
  refine ⟨rfl, hl1, hl2, ?_, ?_⟩
  · have hfu := firstUnfinished_spec em' em'.length 0 (by omega)
    simp only
    by_cases hall : firstUnfinished em' em'.length 0 = em'.length
    · rw [if_pos hall]
      simp only [true_iff]
      left
      intro r hr
      exact hfu.mp hall r (Nat.zero_le r) hr
    · rw [if_neg hall]
      constructor
      · intro hd
        exact Or.inr hd
      · intro hd
        rcases hd with hd | hd
        · exact absurd (hfu.mpr fun r _ hr => hd r hr) hall
        · exact hd
  · intro r hr
    have hrlt : r < s.next_tokens.length := by
      by_contra hge
      rw [List.getElem?_eq_none (by omega)] at hr
      exact Option.noConfusion hr
    obtain ⟨h1, h2⟩ := hin r s.next_tokens[r] true (Nat.zero_le r) (by omega)
      (List.getElem?_eq_getElem hrlt) hr
    simp only [Bool.or_true, if_true] at h1 h2
    exact ⟨h1, h2⟩

theorem appendLoop_spec (next_tokens : List Int) (m c : Nat) (hm : 0 < m) :
    ∀ (remaining row : Nat) (space out : List Int),
      appendLoop next_tokens m c remaining row space = some out →
      out.length = space.length ∧
      (∀ k, (∀ r, row ≤ r → r < row + remaining → k ≠ r * m + c) → out[k]? = space[k]?) ∧
      (∀ r, row ≤ r → r < row + remaining →
        ∃ t, next_tokens[r]? = some t ∧ out[r * m + c]? = some t) := by
  intro remaining
  induction remaining with
  | zero =>
    intro row space out h
    simp only [appendLoop] at h
    injection h with h
    rw [← h]
    exact ⟨rfl, fun _ _ => rfl, fun r h1 h2 => by omega⟩
  | succ n ih =>
    intro row space out h
    simp only [appendLoop] at h
    split at h
    · exact Option.noConfusion h
    · rename_i t ht
      split at h
      · rename_i hin
        obtain ⟨hl, hout, hmid⟩ := ih (row + 1) _ out h
        refine ⟨by rw [hl, List.length_set], ?_, ?_⟩
        · intro k hk
          rw [hout k (fun r h1 h2 => hk r (by omega) (by omega)),
            List.getElem?_set_ne (Ne.symm (hk row (Nat.le_refl row) (by omega)))]
        · intro r h1 h2
          rcases Nat.eq_or_lt_of_le h1 with heq | hlt
          · subst heq
            refine ⟨t, ht, ?_⟩
            rw [hout (row * m + c) ?_, List.getElem?_set_self hin]
            intro r' hr1 hr2 heq
            have : (row + 1) * m ≤ r' * m := Nat.mul_le_mul_right m hr1
            rw [Nat.add_mul, Nat.one_mul] at this
            omega
          · exact hmid r (by omega) (by omega)
      · exact Option.noConfusion h

theorem AppendNextTokensToSequences_spec {α : Type} (s s' : Search α)
    (h : s.AppendNextTokensToSequences = some s') :
    s' = { s with sequences_ := s'.sequences_, sequences_space := s'.sequences_space,
                  done_ := s'.done_ } ∧
      s.sequences_.current_length < s.sequences_.max_length ∧
      s'.sequences_ = { s.sequences_ with current_length := s.sequences_.current_length + 1 } ∧
      s'.sequences_space.length = s.sequences_space.length ∧
      (s'.done_ = true ↔
        (s.sequences_.current_length + 1 = s.params_.max_length ∨ s.done_ = true)) ∧
      (∀ r : Nat, r < s.sequences_.row_count →
        ∃ t, s.next_tokens[r]? = some t ∧
          s'.sequences_space[r * s.sequences_.max_length + s.sequences_.current_length]?
            = some t) := by
  simp only [Search.AppendNextTokensToSequences, Sequences.AppendNextTokenToSequences] at h
  split at h
  · exact Option.noConfusion h
  · rename_i sq space hm
    split at hm
    · rename_i hlt
      split at hm
      · exact Option.noConfusion hm
      · rename_i out hout
        injection hm with hm
        injection hm with hm1 hm2
        injection h with h
        obtain ⟨hl, -, hmid⟩ := appendLoop_spec _ _ _ (by omega) _ _ _ _ hout
        rw [← h, ← hm1, ← hm2]
        refine ⟨rfl, hlt, rfl, hl, ?_, ?_⟩
        · simp only [Sequences.GetSequenceLength]
          by_cases hc : s.sequences_.current_length + 1 = s.params_.max_length
          · simp [hc]
          · simp [hc]
        · intro r hr
          exact hmid r (Nat.zero_le r) (by omega)
    · exact Option.noConfusion hm

/-! ## Theorems: runs -/

theorem SetSequence_frame {α : Type} (s s' : Search α) (ids : List Int)
    (h : s.SetSequence ids = some s') :
    s' = { s with sequences_space := s'.sequences_space } := by
  simp only [Search.SetSequence] at h
  split at h
  · exact Option.noConfusion h
  · injection h with h
    rw [← h]

theorem new_spec {α : Type} [Zero α] (params : SearchParams) (ids : List Int) (s0 : Search α)
    (h : Search.new params ids = some s0) :
    s0.params_ = params ∧ s0.WellFormed ∧ s0.done_ = false ∧
      s0.eos_meet = List.replicate params.batch_size false ∧
      s0.sequences_ = ⟨params.batch_size, params.sequence_length, params.max_length⟩ := by
  simp only [Search.new] at h
  split at h
  · exact Option.noConfusion h
  · split at h
    · have hf := SetSequence_frame _ _ _ h
      rw [hf]
      refine ⟨rfl, ⟨?_, ?_, rfl, rfl⟩, rfl, rfl, rfl⟩
      · simp only [List.length_replicate]
      · simp only [List.length_replicate]
    · exact Option.noConfusion h

theorem check_chain {α : Type} [LinearOrder α] (s s1 s2 s3 : Search α) (logits : Logits α)
    (hwf : s.WellFormed) (h1 : s.RunModel logits = some s1)
    (h2 : s1.NextTokensFromLogits = some s2) (h3 : s2.CheckForEOS = some s3) :
    s3.WellFormed ∧ s3.params_ = s.params_ ∧ s3.sequences_ = s.sequences_ ∧
      s3.sequences_space = s.sequences_space ∧
      (s3.done_ = true ↔
        ((∀ r, r < s.params_.batch_size → s3.eos_meet[r]? = some true) ∨ s.done_ = true)) ∧
      (∀ r : Nat, s.eos_meet[r]? = some true →
        s3.eos_meet[r]? = some true ∧ s3.next_tokens[r]? = some s.params_.pad_token_id) := by
  obtain ⟨w1, w2, w3, w4⟩ := hwf
  have f1 := RunModel_frame _ _ _ h1
  obtain ⟨f2, l2⟩ := NextTokensFromLogits_frame _ _ h2
  have a1 : s2.eos_meet = s.eos_meet := by rw [f2, f1]
  have a2 : s2.params_ = s.params_ := by rw [f2, f1]
  have a3 : s2.sequences_ = s.sequences_ := by rw [f2, f1]
  have a4 : s2.sequences_space = s.sequences_space := by rw [f2, f1]
  have a5 : s2.done_ = s.done_ := by rw [f2, f1]
  have a6 : s2.next_tokens.length = s.next_tokens.length := by rw [l2, f1]
  obtain ⟨f3, l3, l4, hd, hr⟩ := CheckForEOS_spec s2 s3 (by rw [a1, a6, w1, w2]) h3
  have b2 : s3.params_ = s.params_ := by rw [f3]; exact a2
  have b3 : s3.sequences_ = s.sequences_ := by rw [f3]; exact a3
  have b4 : s3.sequences_space = s.sequences_space := by rw [f3]; exact a4
  refine ⟨⟨?_, ?_, ?_, ?_⟩, b2, b3, b4, ?_, ?_⟩
  · rw [l3, a6, w1, b2]
  · rw [l4, a1, w2, b2]
  · rw [b3, b2]; exact w3
  · rw [b3, b2]; exact w4
  · rw [hd, l4, a1, w2, a5]
  · intro r hr'
    have := hr r (by rw [a1]; exact hr')
    rw [a2] at this
    exact this

theorem step_spec {α : Type} [LinearOrder α] (s s' : Search α) (logits : Logits α)
    (hwf : s.WellFormed) (h : s.step logits = some s') :
    s'.WellFormed ∧ s'.params_ = s.params_ ∧
      s.sequences_.current_length < s.params_.max_length ∧
      s'.sequences_.current_length = s.sequences_.current_length + 1 ∧
      (s'.done_ = true ↔
        ((∀ r, r < s.params_.batch_size → s'.eos_meet[r]? = some true) ∨
          s'.sequences_.current_length = s.params_.max_length ∨ s.done_ = true)) ∧
      (∀ r : Nat, s.eos_meet[r]? = some true →
        s'.eos_meet[r]? = some true ∧ s'.next_tokens[r]? = some s.params_.pad_token_id) := by
  simp only [Search.step] at h
  split at h
  · exact Option.noConfusion h
  · rename_i s1 h1
    split at h
    · exact Option.noConfusion h
    · rename_i s2 h2
      split at h
      · exact Option.noConfusion h
      · rename_i s3 h3
        obtain ⟨⟨w1, w2, w3, w4⟩, c2, c3, c4, cd, cr⟩ := check_chain s s1 s2 s3 logits hwf h1 h2 h3
        obtain ⟨f4, hlt, hsq, -, hd, -⟩ := AppendNextTokensToSequences_spec s3 s' h
        have d1 : s'.params_ = s3.params_ := by rw [f4]
        have d2 : s'.eos_meet = s3.eos_meet := by rw [f4]
        have d3 : s'.next_tokens = s3.next_tokens := by rw [f4]
        refine ⟨⟨?_, ?_, ?_, ?_⟩, by rw [d1, c2], ?_, ?_, ?_, ?_⟩
        · rw [d3, d1]; exact w1
        · rw [d2, d1]; exact w2
        · rw [hsq, d1]; exact w3
        · rw [hsq, d1]; exact w4
        · rw [← c2, ← w4, ← c3]; exact hlt
        · rw [hsq, c3]
        · rw [hd, cd, d2, hsq, c3, c2]
          constructor
          · rintro (h | h | h)
            · exact Or.inr (Or.inl h)
            · exact Or.inl h
            · exact Or.inr (Or.inr h)
          · rintro (h | h | h)
            · exact Or.inr (Or.inl h)
            · exact Or.inl h
            · exact Or.inr (Or.inr h)
        · intro r hr
          rw [d2, d3]
          exact cr r hr

theorem steps_spec {α : Type} [LinearOrder α] :
    ∀ (outs : List (Logits α)) (s s' : Search α), s.WellFormed → s.steps outs = some s' →
      s'.WellFormed ∧ s'.params_ = s.params_ ∧
      (∀ r : Nat, s.eos_meet[r]? = some true → s'.eos_meet[r]? = some true) := by
  intro outs
  induction outs with
  | nil =>
    intro s s' hwf h
    simp only [Search.steps] at h
    injection h with h
    rw [← h]
    exact ⟨hwf, rfl, fun _ h => h⟩
  | cons l rest ih =>
    intro s s' hwf h
    simp only [Search.steps] at h
    split at h
    · exact Option.noConfusion h
    · rename_i s1 h1
      obtain ⟨wf1, p1, -, -, -, hr1⟩ := step_spec s s1 l hwf h1
      obtain ⟨wf', p', hr'⟩ := ih s1 s' wf1 h
      exact ⟨wf', by rw [p', p1], fun r hr => hr' r (hr1 r hr).1⟩

/-- Claim C6. Take any run: construction, then any decode steps with any model
outputs (`before`), reaching a state `sn` in which the flag of row `r` is set,
then any further steps (`after`), reaching `sm`. Then the flag of row `r` is
still set in `sm`, and in the step that follows `sm`, whatever the model
returns: after `CheckForEOS` the flag is set and `next_tokens[r]` holds the pad
id; after `AppendNextTokensToSequences` the same holds, and the token appended
to row `r` of the sequence store (column: the length before the step) is the
pad id. -/
theorem eos_meet_monotone {α : Type} [LinearOrder α] [Zero α] (params : SearchParams)
    (ids : List Int) (before after : List (Logits α)) (s0 sn sm : Search α) (r : Nat)
    (hnew : Search.new params ids = some s0)
    (hbefore : s0.steps before = some sn)
    (hset : sn.eos_meet[r]? = some true)
    (hafter : sn.steps after = some sm) :
    sm.eos_meet[r]? = some true ∧
    ∀ (logits : Logits α) (s1 s2 s3 : Search α),
      sm.RunModel logits = some s1 → s1.NextTokensFromLogits = some s2 →
      s2.CheckForEOS = some s3 →
      s3.eos_meet[r]? = some true ∧ s3.next_tokens[r]? = some params.pad_token_id ∧
      ∀ s4 : Search α, s3.AppendNextTokensToSequences = some s4 →
        s4.eos_meet[r]? = some true ∧ s4.next_tokens[r]? = some params.pad_token_id ∧
        s4.sequences_.GetSequenceLength = sm.sequences_.GetSequenceLength + 1 ∧
        s4.sequences_space[r * params.max_length + sm.sequences_.GetSequenceLength]?
          = some params.pad_token_id := by
  obtain ⟨p0, wf0, -, -, -⟩ := new_spec params ids s0 hnew
  obtain ⟨wfn, pn, -⟩ := steps_spec before s0 sn wf0 hbefore
  obtain ⟨wfm, pm, hm⟩ := steps_spec after sn sm wfn hafter
  have hp : sm.params_ = params := by rw [pm, pn, p0]
  have hsm := hm r hset
  refine ⟨hsm, ?_⟩
  intro logits s1 s2 s3 h1 h2 h3
  obtain ⟨⟨w1, w2, w3, w4⟩, c2, c3, c4, -, cr⟩ := check_chain sm s1 s2 s3 logits wfm h1 h2 h3
  obtain ⟨e3, n3⟩ := cr r hsm
  rw [hp] at n3
  refine ⟨e3, n3, ?_⟩
  intro s4 h4
  obtain ⟨f4, -, hsq, -, -, hrow⟩ := AppendNextTokensToSequences_spec s3 s4 h4
  have d2 : s4.eos_meet = s3.eos_meet := by rw [f4]
  have d3 : s4.next_tokens = s3.next_tokens := by rw [f4]
  have hr : r < s3.sequences_.row_count := by
    rw [w3, ← w2]
    by_contra hge
    rw [List.getElem?_eq_none (by omega)] at e3
    exact Option.noConfusion e3
  obtain ⟨t, ht, hst⟩ := hrow r hr
  rw [n3] at ht
  injection ht with ht
  rw [w4, c2, hp, c3, ← ht] at hst
  refine ⟨by rw [d2]; exact e3, by rw [d3]; exact n3, ?_, hst⟩
  simp only [Sequences.GetSequenceLength]
  rw [hsq, c3]

/-- A concrete instance of C6: one row, eos id 1, pad id 7. The first step
selects the eos id, which sets the flag; in the next step the model prefers
token 0, the flag stays set and the pad id 7 is appended at column 2. -/
theorem eos_meet_monotone_witness :
    (Search.new runParams [0] = some runStart ∧
      runStart.steps [⟨[1, 1, 2], [0, 5]⟩] = some runAfterEos ∧
      runAfterEos.eos_meet[0]? = some true ∧
      runAfterEos.steps [⟨[1, 1, 2], [5, 0]⟩] = some runLater ∧
      runAfterEos.RunModel ⟨[1, 1, 2], [5, 0]⟩ = some runLaterModel ∧
      runLaterModel.NextTokensFromLogits = some runLaterSelected ∧
      runLaterSelected.CheckForEOS = some runLaterChecked ∧
      runLaterChecked.AppendNextTokensToSequences = some runLater) ∧
    runLater.eos_meet[0]? = some true ∧
    runLater.sequences_space[0 * runParams.max_length
      + runAfterEos.sequences_.GetSequenceLength]? = some runParams.pad_token_id :=
  ⟨⟨by decide, by decide, by decide, by decide, by decide, by decide, by decide, by decide⟩,
    (eos_meet_monotone runParams [0] [⟨[1, 1, 2], [0, 5]⟩] [⟨[1, 1, 2], [5, 0]⟩]
      runStart runAfterEos runLater 0 (by decide) (by decide) (by decide) (by decide)).1,
    (((eos_meet_monotone runParams [0] [⟨[1, 1, 2], [0, 5]⟩] []
      runStart runAfterEos runAfterEos 0 (by decide) (by decide) (by decide) (by decide)).2
        ⟨[1, 1, 2], [5, 0]⟩ runLaterModel runLaterSelected runLaterChecked
        (by decide) (by decide) (by decide)).2.2
          runLater (by decide)).2.2.2⟩

theorem step_done_iff {α : Type} [LinearOrder α] (s s' : Search α) (logits : Logits α)
    (hwf : s.WellFormed)
    (hdone : s.done_ = true →
      ((∀ r, r < s.params_.batch_size → s.eos_meet[r]? = some true) ∨
        s.sequences_.current_length = s.params_.max_length))
    (h : s.step logits = some s') :
    (s'.done_ = true ↔
      ((∀ r, r < s.params_.batch_size → s'.eos_meet[r]? = some true) ∨
        s'.sequences_.current_length = s.params_.max_length)) := by
  obtain ⟨-, -, hlt, -, hd, hr⟩ := step_spec s s' logits hwf h
  rw [hd]
  constructor
  · rintro (h1 | h1 | h1)
    · exact Or.inl h1
    · exact Or.inr h1
    · rcases hdone h1 with h2 | h2
      · exact Or.inl fun r hr' => (hr r (h2 r hr')).1
      · omega
  · rintro (h1 | h1)
    · exact Or.inl h1
    · exact Or.inr (Or.inl h1)

theorem steps_done_iff {α : Type} [LinearOrder α] :
    ∀ (outs : List (Logits α)) (s s' : Search α), s.WellFormed →
      (s.done_ = true →
        ((∀ r, r < s.params_.batch_size → s.eos_meet[r]? = some true) ∨
          s.sequences_.current_length = s.params_.max_length)) →
      outs ≠ [] → s.steps outs = some s' →
      (s'.done_ = true ↔
        ((∀ r, r < s.params_.batch_size → s'.eos_meet[r]? = some true) ∨
          s'.sequences_.current_length = s.params_.max_length)) := by
  intro outs
  induction outs with
  | nil =>
    intro s s' _ _ hne _
    exact absurd rfl hne
  | cons l rest ih =>
    intro s s' hwf hdone _ h
    simp only [Search.steps] at h
    split at h
    · exact Option.noConfusion h
    · rename_i s1 h1
      have hiff := step_done_iff s s1 l hwf hdone h1
      obtain ⟨wf1, p1, -, -, -, -⟩ := step_spec s s1 l hwf h1
      cases rest with
      | nil =>
        simp only [Search.steps] at h
        injection h with h
        rw [← h]
        exact hiff
      | cons l2 rest2 =>
        have := ih s1 s' wf1 (by rw [p1]; exact hiff.mp) (List.cons_ne_nil _ _) h
        rw [p1] at this
        exact this

/-- Claim C7, as amended. For every run with `prompt_length ≤ max_length`: the
constructor leaves `done` cleared, so at construction the equivalence of the
claim holds exactly when there is at least one row and
`prompt_length < max_length`; and after every completed decode step
(`RunModel`, `NextTokensFromLogits`, `CheckForEOS`,
`AppendNextTokensToSequences`), whatever the model returned, `done` is set if
and only if every row's `eos_meet` flag is set or the sequence length equals
`max_length`. -/
theorem done_iff_after_steps {α : Type} [LinearOrder α] [Zero α] (params : SearchParams)
    (ids : List Int) (s0 : Search α)
    (hprompt : params.sequence_length ≤ params.max_length)
    (hnew : Search.new params ids = some s0) :
    s0.done_ = false ∧
    ((s0.done_ = true ↔
        ((∀ r, r < params.batch_size → s0.eos_meet[r]? = some true) ∨
          s0.sequences_.GetSequenceLength = params.max_length)) ↔
      (0 < params.batch_size ∧ params.sequence_length < params.max_length)) ∧
    ∀ (outs : List (Logits α)) (s' : Search α), outs ≠ [] → s0.steps outs = some s' →
      (s'.done_ = true ↔
        ((∀ r, r < params.batch_size → s'.eos_meet[r]? = some true) ∨
          s'.sequences_.GetSequenceLength = params.max_length)) := by
  obtain ⟨p0, wf0, d0, e0, q0⟩ := new_spec params ids s0 hnew
  refine ⟨d0, ?_, ?_⟩
  · rw [d0, e0, q0]
    simp only [Sequences.GetSequenceLength, Bool.false_eq_true, false_iff, not_or]
    constructor
    · rintro ⟨h1, h2⟩
      refine ⟨?_, by omega⟩
      by_contra hb
      exact h1 fun r hr => absurd hr (by omega)
    · rintro ⟨hb, hlt⟩
      refine ⟨?_, by omega⟩
      intro hall
      have h0 := hall 0 hb
      rw [List.getElem?_replicate, if_pos hb] at h0
      exact absurd h0 (by decide)
  · intro outs s' hne h
    have := steps_done_iff outs s0 s' wf0 (by rw [d0]; intro hc; exact absurd hc (by decide)) hne h
    rw [p0] at this
    exact this

/-- A concrete instance of the amended C7: after the first step of the run
above, `done` is set, and the row is finished. -/
theorem done_iff_after_steps_witness :
    (runParams.sequence_length ≤ runParams.max_length ∧
      Search.new runParams [0] = some runStart) ∧
    (runAfterEos.done_ = true ↔
      ((∀ r, r < runParams.batch_size → runAfterEos.eos_meet[r]? = some true) ∨
        runAfterEos.sequences_.GetSequenceLength = runParams.max_length)) :=
  ⟨⟨by decide, by decide⟩,
    (done_iff_after_steps runParams [0] runStart (by decide) (by decide)).2.2
      [⟨[1, 1, 2], [0, 5]⟩] runAfterEos (List.cons_ne_nil _ _) (by decide)⟩

/-- Claim C7 as stated fails at construction. With `prompt_length = max_length =
1` (one row), the constructed state has `done` cleared although the sequence
length already equals `max_length`. -/
theorem done_iff_fails_at_construction :
    fullPromptParams.sequence_length ≤ fullPromptParams.max_length ∧
    Search.new fullPromptParams [0] = some fullPromptStart ∧
    ¬ (fullPromptStart.done_ = true ↔
      ((∀ r, r < fullPromptParams.batch_size → fullPromptStart.eos_meet[r]? = some true) ∨
        fullPromptStart.sequences_.GetSequenceLength = fullPromptParams.max_length)) := by
  refine ⟨by decide, by decide, ?_⟩
  intro h
  have hd : fullPromptStart.done_ = true := h.mpr (Or.inr rfl)
  exact absurd hd (by decide)

/-! ## Theorems: repetition penalty -/

theorem foldl_insert_spec (sequence : List Int) :
    ∀ acc : List Int,
      (∀ w, w ∈ sequence.foldl (fun set word_id => set.insert word_id) acc ↔
        (w ∈ acc ∨ w ∈ sequence)) ∧
      (acc.Nodup → (sequence.foldl (fun set word_id => set.insert word_id) acc).Nodup) := by
  induction sequence with
  | nil =>
    intro acc
    exact ⟨fun w => by simp, fun h => h⟩
  | cons a rest ih =>
    intro acc
    obtain ⟨hmem, hnd⟩ := ih (acc.insert a)
    refine ⟨?_, ?_⟩
    · intro w
      simp only [List.foldl_cons]
      rw [hmem w, List.mem_insert_iff, List.mem_cons]
      constructor
      · rintro ((h | h) | h)
        · exact Or.inr (Or.inl h)
        · exact Or.inl h
        · exact Or.inr (Or.inr h)
      · rintro (h | h | h)
        · exact Or.inl (Or.inr h)
        · exact Or.inl (Or.inl h)
        · exact Or.inr h
    · intro h
      simp only [List.foldl_cons]
      exact hnd (h.insert)

theorem mem_uniqueWordIds (sequence : List Int) (w : Int) :
    w ∈ uniqueWordIds sequence ↔ w ∈ sequence := by
  have := (foldl_insert_spec sequence []).1 w
  simpa [uniqueWordIds] using this

theorem nodup_uniqueWordIds (sequence : List Int) : (uniqueWordIds sequence).Nodup :=
  (foldl_insert_spec sequence []).2 List.nodup_nil

theorem penalizeLoop_spec {α : Type} [LinearOrderedField α] (penalty : α) (off V : Nat) :
    ∀ (ids : List Int) (scores : List α), ids.Nodup →
      (∀ w, w ∈ ids → 0 ≤ w ∧ w < (V : Int)) → off + V ≤ scores.length →
      ∃ out, penalizeLoop penalty ⟨off, V⟩ ids scores = some out ∧
        out.length = scores.length ∧
        (∀ k, (k < off ∨ off + V ≤ k) → out[k]? = scores[k]?) ∧
        (∀ (w : Nat) (score : α), w < V → scores[off + w]? = some score →
          out[off + w]? = some (if (w : Int) ∈ ids then
            (if score < 0 then score * penalty else score / penalty) else score)) := by
  intro ids
  induction ids with
  | nil =>
    intro scores _ _ _
    refine ⟨scores, rfl, rfl, fun _ _ => rfl, ?_⟩
    intro w score _ h
    simp [h]
  | cons w0 rest ih =>
    intro scores hnd hrange hlen
    obtain ⟨h0, hV⟩ := hrange w0 (List.mem_cons_self _ _)
    obtain ⟨n0, rfl⟩ : ∃ n0 : Nat, w0 = (n0 : Int) := ⟨w0.toNat, (Int.toNat_of_nonneg h0).symm⟩
    have hn0 : n0 < V := by exact_mod_cast hV
    have hidx : Span.index ⟨off, V⟩ (n0 : Int) = some (off + n0) := by
      simp only [Span.index, Int.toNat_ofNat]
      rw [if_pos ⟨h0, hV⟩]
    have hpos : off + n0 < scores.length := by omega
    have hget : scores[off + n0]? = some scores[off + n0] := List.getElem?_eq_getElem hpos
    obtain ⟨hnotin, hnd'⟩ := List.nodup_cons.mp hnd
    obtain ⟨out, hout, hl, hoout, hoin⟩ :=
      ih (scores.set (off + n0)
          (if scores[off + n0] < 0 then scores[off + n0] * penalty
            else scores[off + n0] / penalty))
        hnd' (fun w hw => hrange w (List.mem_cons_of_mem _ hw))
        (by rw [List.length_set]; exact hlen)
    refine ⟨out, ?_, by rw [hl, List.length_set], ?_, ?_⟩
    · simp only [penalizeLoop, hidx, hget, hout]
    · intro k hk
      rw [hoout k hk, List.getElem?_set_ne (by omega)]
    · intro w score hw hs
      by_cases hwn : w = n0
      · subst hwn
        rw [hget] at hs
        injection hs with hs
        rw [hoin w _ hw (List.getElem?_set_self hpos), if_neg hnotin,
          if_pos (List.mem_cons_self _ _), hs]
      · have hne : ((w : Int) ∈ (n0 : Int) :: rest) ↔ ((w : Int) ∈ rest) := by
          rw [List.mem_cons]
          constructor
          · rintro (h | h)
            · exact absurd (by exact_mod_cast h) hwn
            · exact h
          · exact fun h => Or.inr h
        rw [hoin w score hw (by rw [List.getElem?_set_ne (by omega)]; exact hs)]
        by_cases hin : (w : Int) ∈ rest
        · rw [if_pos hin, if_pos (hne.mpr hin)]
        · rw [if_neg hin, if_neg (fun h => hin (hne.mp h))]

theorem repetitionPenaltyLoop_spec {α : Type} [LinearOrderedField α] (penalty : α)
    (params : SearchParams) (sq : Sequences) (space : List Int)
    (hids : ∀ r, r < params.BatchBeamSize →
      ∀ w, w ∈ Span.read ⟨r * sq.max_length, sq.max_length⟩ space →
        0 ≤ w ∧ w < (params.vocab_size : Int))
    (hspace : params.BatchBeamSize * sq.max_length ≤ space.length) :
    ∀ (remaining i : Nat) (scores : List α),
      i + remaining ≤ params.BatchBeamSize →
      params.BatchBeamSize * params.vocab_size ≤ scores.length →
      ∃ out, repetitionPenaltyLoop penalty params sq space remaining i scores = some out ∧
        out.length = scores.length ∧
        (∀ k, (k < i * params.vocab_size ∨ (i + remaining) * params.vocab_size ≤ k) →
          out[k]? = scores[k]?) ∧
        (∀ (r w : Nat) (score : α), i ≤ r → r < i + remaining → w < params.vocab_size →
          scores[r * params.vocab_size + w]? = some score →
          out[r * params.vocab_size + w]? = some
            (if (w : Int) ∈ Span.read ⟨r * sq.max_length, sq.max_length⟩ space then
              (if score < 0 then score * penalty else score / penalty) else score)) := by
  intro remaining
  induction remaining with
  | zero =>
    intro i scores _ _
    exact ⟨scores, rfl, rfl, fun _ _ => rfl, fun r w score h1 h2 => by omega⟩
  | succ n ih =>
    intro i scores hi hscores
    have hiB : i < params.BatchBeamSize := by omega
    have e1 : (i + 1) * params.vocab_size = i * params.vocab_size + params.vocab_size := by ring
    have e2 : (i + 1) * sq.max_length = i * sq.max_length + sq.max_length := by ring
    have e3 : (i + (n + 1)) * params.vocab_size
        = i * params.vocab_size + params.vocab_size + n * params.vocab_size := by ring
    have e4 : (i + 1 + n) * params.vocab_size
        = i * params.vocab_size + params.vocab_size + n * params.vocab_size := by ring
    have b1 : (i + 1) * params.vocab_size ≤ params.BatchBeamSize * params.vocab_size :=
      Nat.mul_le_mul_right _ hiB
    have b2 : (i + 1) * sq.max_length ≤ params.BatchBeamSize * sq.max_length :=
      Nat.mul_le_mul_right _ hiB
    have hrow : i * params.vocab_size + params.vocab_size ≤ scores.length := by omega
    have hview : i * sq.max_length + sq.max_length ≤ space.length := by omega
    obtain ⟨mid, hmid, hml, hmout, hmin⟩ :=
      penalizeLoop_spec penalty (i * params.vocab_size) params.vocab_size
        (uniqueWordIds (Span.read ⟨i * sq.max_length, sq.max_length⟩ space)) scores
        (nodup_uniqueWordIds _)
        (fun w hw => hids i hiB w ((mem_uniqueWordIds _ w).mp hw)) hrow
    obtain ⟨out, hout, hol, hoout, hoin⟩ := ih (i + 1) mid (by omega) (by omega)
    refine ⟨out, ?_, by rw [hol, hml], ?_, ?_⟩
    · simp only [repetitionPenaltyLoop, GetScores, if_pos hiB, subspan, if_pos hrow,
        Sequences.GetSequence, if_pos hview, hmid, hout]
    · intro k hk
      rw [hoout k (by omega), hmout k (by omega)]
    · intro r w score hr1 hr2 hw hs
      rcases Nat.eq_or_lt_of_le hr1 with heq | hlt
      · subst heq
        rw [hoout _ (by omega), hmin w score hw hs]
        simp only [mem_uniqueWordIds]
      · have b3 : (i + 1) * params.vocab_size ≤ r * params.vocab_size :=
          Nat.mul_le_mul_right _ hlt
        apply hoin r w score (by omega) (by omega) hw
        rw [hmout _ (by omega)]
        exact hs

/-- Claim C8. Let the score buffer hold `batch_beam_size` rows of `vocab_size`
scores, the sequence store hold the `batch_beam_size` row views, and every
token id in every row view lie in `[0, vocab_size)`. For every penalty
`p ≠ 0`, `RepetitionPenalty` succeeds and, for every row `i` and token id `w`:
if `w` occurs in the row's sequence view `GetSequence(i)`, once or several
times, the new score is `score / p` when `score ≥ 0` and `score * p`
otherwise (the penalty applied exactly once); if `w` does not occur there, the
score is unchanged. Nothing but the score buffer changes. -/
theorem RepetitionPenalty_scores {α : Type} [LinearOrderedField α] (s : Search α) (p : α)
    (_hp : p ≠ 0)
    (hscores : s.next_token_scores.length = s.params_.BatchBeamSize * s.params_.vocab_size)
    (hspace : s.params_.BatchBeamSize * s.sequences_.max_length ≤ s.sequences_space.length)
    (hids : ∀ (i : Nat) (sequence : List Int), i < s.params_.BatchBeamSize →
      s.sequences_.GetSequence s.sequences_space i = some sequence →
      ∀ w, w ∈ sequence → 0 ≤ w ∧ w < (s.params_.vocab_size : Int)) :
    ∃ s', Processors.RepetitionPenalty s p = some s' ∧
      s' = { s with next_token_scores := s'.next_token_scores } ∧
      s'.next_token_scores.length = s.next_token_scores.length ∧
      ∀ i, i < s.params_.BatchBeamSize →
        ∃ sequence, s.sequences_.GetSequence s.sequences_space i = some sequence ∧
          ∀ w : Nat, w < s.params_.vocab_size →
            ∃ score, s.next_token_scores[i * s.params_.vocab_size + w]? = some score ∧
              s'.next_token_scores[i * s.params_.vocab_size + w]? = some
                (if (w : Int) ∈ sequence then (if score ≥ 0 then score / p else score * p)
                 else score) := by
  have hview : ∀ i, i < s.params_.BatchBeamSize →
      s.sequences_.GetSequence s.sequences_space i
        = some (Span.read ⟨i * s.sequences_.max_length, s.sequences_.max_length⟩
            s.sequences_space) := by
    intro i hi
    have b : (i + 1) * s.sequences_.max_length
        ≤ s.params_.BatchBeamSize * s.sequences_.max_length := Nat.mul_le_mul_right _ hi
    rw [Nat.add_mul, Nat.one_mul] at b
    simp only [Sequences.GetSequence, subspan, if_pos (by omega : i * s.sequences_.max_length
      + s.sequences_.max_length ≤ s.sequences_space.length)]
  obtain ⟨out, hout, hol, -, hoin⟩ :=
    repetitionPenaltyLoop_spec p s.params_ s.sequences_ s.sequences_space
      (fun r hr w hw => hids r _ hr (hview r hr) w hw) hspace s.params_.BatchBeamSize 0
      s.next_token_scores (by omega) (by omega)
  refine ⟨{ s with next_token_scores := out }, ?_, rfl, hol, ?_⟩
  · simp only [Processors.RepetitionPenalty, hout]
  · intro i hi
    refine ⟨_, hview i hi, ?_⟩
    intro w hw
    have b : (i + 1) * s.params_.vocab_size
        ≤ s.params_.BatchBeamSize * s.params_.vocab_size := Nat.mul_le_mul_right _ hi
    rw [Nat.add_mul, Nat.one_mul] at b
    have hlt : i * s.params_.vocab_size + w < s.next_token_scores.length := by omega
    refine ⟨s.next_token_scores[i * s.params_.vocab_size + w],
      List.getElem?_eq_getElem hlt, ?_⟩
    rw [hoin i w _ (Nat.zero_le i) (by omega) hw (List.getElem?_eq_getElem hlt)]
    by_cases hneg : s.next_token_scores[i * s.params_.vocab_size + w] < 0
    · simp only [if_pos hneg, ge_iff_le, if_neg (not_le.mpr hneg)]
    · simp only [if_neg hneg, ge_iff_le, if_pos (not_lt.mp hneg)]


/-- A concrete instance of C8: penalty 2 on the scores `[4, -6, 8, 3]` of a row
whose sequence view is `[1, 2, 1]`. -/
theorem RepetitionPenalty_scores_witness :
    ∃ s', Processors.RepetitionPenalty penaltySearch 2 = some s' ∧
      s'.next_token_scores = [4, -12, 4, 3] := by
  obtain ⟨s', hs', -, -, -⟩ := RepetitionPenalty_scores penaltySearch 2 (by norm_num)
    (by decide) (by decide)
    (by
      intro i sequence hi hseq w hw
      have hi0 : i = 0 := by
        have : penaltySearch.params_.BatchBeamSize = 1 := by decide
        omega
      subst hi0
      have hrow : penaltySearch.sequences_.GetSequence penaltySearch.sequences_space 0
          = some [1, 2, 1] := by decide
      rw [hrow] at hseq
      injection hseq with hseq
      subst hseq
      simp only [List.mem_cons, List.mem_singleton, List.not_mem_nil, or_false] at hw
      rcases hw with rfl | rfl | rfl <;> decide)
  refine ⟨s', hs', ?_⟩
  have h : Processors.RepetitionPenalty penaltySearch 2
      = some { penaltySearch with next_token_scores := [4, -12, 4, 3] } := by
    decide!
  rw [h] at hs'
  injection hs' with hs'
  rw [← hs']

/-! ## Theorems: selection reads the model's logits -/

/-- Claim C2, the code at a failing input. One row, two token ids, eos id 1,
prompt `[0, 0]` (length 2, below the minimum length 3). The model returns the
scores `[0, 1]` at both prompt positions. `RunModel` puts `[0, 1]` in the score
buffer and `MinLength` overwrites the eos score there, giving `[0, lowest]`;
`NextTokensFromLogits` then scans the model's logits, not the score buffer, and
selects token 1, the eos id, whatever `lowest` is. -/
theorem MinLength_does_not_reach_selection (lowest : Int) :
    ((Search.new ⟨1, 1, 2, 5, 2, 1, 0⟩ [0, 0]).bind fun s0 =>
      (s0.RunModel ⟨[1, 2, 2], [0, 1, 0, 1]⟩).bind fun s1 =>
        (Processors.MinLength lowest s1 3).bind fun s2 =>
          s2.NextTokensFromLogits.map fun s3 =>
            (s1.next_token_scores, s2.next_token_scores, s3.next_tokens))
      = some ([0, 1], [0, lowest], [1]) := by
  rfl

/-- Claim C10, the code at a failing input. The scenario of the claim, the model
returning `[0, 1, 0, 0, 0]` for the first prompt position and
`[0.1, 0.2, 0.9, 0.05, 0.05]` for the last one. `RunModel` extracts the scores
of the last position, but `NextTokensFromLogits` scans the logits from the
start of the tensor, the first position, and selects token 1, not token 2: the
sequence becomes `[2, 3, 1]`. After the second step (token 4, the eos id,
replaced by the pad id 0) the row is finished, the sequence is `[2, 3, 1, 0]`
and `done` is set; `Finalize` yields `[2, 3, 1, 0, 0]`, not `[2, 3, 2, 0, 0]`. -/
theorem scenario_selects_from_first_position :
    Search.new scenarioParams [2, 3] = some scenarioStart ∧
    scenarioStart.step scenarioLogits1 = some scenarioStep1 ∧
    scenarioStep1.next_token_scores = [1 / 10, 2 / 10, 9 / 10, 5 / 100, 5 / 100] ∧
    scenarioStep1.next_tokens = [1] ∧
    scenarioStep1.sequences_space.take 3 = [2, 3, 1] ∧
    scenarioStep1.step scenarioLogits2 = some scenarioStep2 ∧
    scenarioStep2.eos_meet = [true] ∧
    scenarioStep2.next_tokens = [0] ∧
    scenarioStep2.sequences_space.take 4 = [2, 3, 1, 0] ∧
    scenarioStep2.done_ = true ∧
    scenarioStep2.Finalize = some scenarioFinal ∧
    scenarioFinal.output_sequences_ = [2, 3, 1, 0, 0] := by
  refine ⟨by decide!, by decide!, rfl, rfl, rfl, by decide!, rfl, rfl, rfl, rfl, by decide!, rfl⟩

/-! ## Theorems: finalization -/

theorem finalizeLoop_spec (sq : Sequences) (space : List Int) :
    ∀ (remaining batch_id : Nat) (output : List Int),
      (batch_id + remaining) * sq.max_length ≤ output.length →
      (batch_id + remaining) * sq.max_length ≤ space.length →
      ∃ out, finalizeLoop sq space sq.max_length remaining batch_id output = some out ∧
        out.length = output.length ∧
        (∀ k, (k < batch_id * sq.max_length ∨ (batch_id + remaining) * sq.max_length ≤ k) →
          out[k]? = output[k]?) ∧
        (∀ k, batch_id * sq.max_length ≤ k → k < (batch_id + remaining) * sq.max_length →
          out[k]? = space[k]?) := by
  intro remaining
  induction remaining with
  | zero =>
    intro b output _ _
    exact ⟨output, rfl, rfl, fun _ _ => rfl, fun k h1 h2 => by
      rw [Nat.add_zero] at h2
      omega⟩
  | succ n ih =>
    intro b output hout hspace
    have e1 : (b + (n + 1)) * sq.max_length
        = b * sq.max_length + sq.max_length + n * sq.max_length := by ring
    have e2 : (b + 1 + n) * sq.max_length
        = b * sq.max_length + sq.max_length + n * sq.max_length := by ring
    have e3 : (b + 1) * sq.max_length = b * sq.max_length + sq.max_length := by ring
    have htgt : b * sq.max_length + sq.max_length ≤ output.length := by omega
    have hsrc : b * sq.max_length + sq.max_length ≤ space.length := by omega
    have hrl : (Span.read ⟨b * sq.max_length, sq.max_length⟩ space).length = sq.max_length :=
      Span.read_length _ _ hsrc
    obtain ⟨mid, hmid, hml, hmin, hmout⟩ :=
      copy_spec (Span.read ⟨b * sq.max_length, sq.max_length⟩ space)
        ⟨b * sq.max_length, sq.max_length⟩ output (by rw [hrl]) htgt
    obtain ⟨out, ho, hol, hoout, hoin⟩ := ih (b + 1) mid (by omega) (by omega)
    refine ⟨out, ?_, by rw [hol, hml], ?_, ?_⟩
    · simp only [finalizeLoop, subspan, if_pos htgt, Sequences.GetSequence, if_pos hsrc, hmid, ho]
    · intro k hk
      rw [hoout k (by omega)]
      apply hmout k
      simp only [hrl]
      omega
    · intro k hk1 hk2
      by_cases hlt : k < b * sq.max_length + sq.max_length
      · rw [hoout k (by omega)]
        obtain ⟨j, rfl⟩ : ∃ j, k = b * sq.max_length + j := ⟨k - b * sq.max_length, by omega⟩
        have hj : j < sq.max_length := by omega
        have := hmin j (by rw [hrl]; exact hj)
        simp only at this
        rw [this, Span.read_getElem? _ _ _ hj]
      · exact hoin k (by omega) (by omega)

/-- Claim C11, as amended. In a state whose output tensor has
`batch_size * max_length` entries and whose sequence store holds at least that
many, `Finalize` succeeds and leaves row `b` of the output equal to row `b` of
the sequence store, for every `b < batch_size` and every column; that row is
row `b * num_beams`, beam 0 of batch element `b`, when `num_beams = 1`. Only
the output tensor changes, so the store is unchanged and a second `Finalize`
returns the same state. -/
theorem Finalize_rows {α : Type} (s : Search α)
    (hview : s.sequences_.max_length = s.params_.max_length)
    (hout : s.output_sequences_.length = s.params_.batch_size * s.params_.max_length)
    (hspace : s.params_.batch_size * s.params_.max_length ≤ s.sequences_space.length) :
    ∃ s', s.Finalize = some s' ∧
      s' = { s with output_sequences_ := s'.output_sequences_ } ∧
      (∀ b j, b < s.params_.batch_size → j < s.params_.max_length →
        ∃ token, s.sequences_space[b * s.params_.max_length + j]? = some token ∧
          s'.output_sequences_[b * s.params_.max_length + j]? = some token) ∧
      (s.params_.num_beams = 1 →
        ∀ b j, b < s.params_.batch_size → j < s.params_.max_length →
          s'.output_sequences_[b * s.params_.max_length + j]?
            = s.sequences_space[(b * s.params_.num_beams) * s.params_.max_length + j]?) ∧
      s'.Finalize = some s' := by
  obtain ⟨out, ho, hol, -, hoin⟩ :=
    finalizeLoop_spec s.sequences_ s.sequences_space s.params_.batch_size 0 s.output_sequences_
      (by rw [hview, Nat.zero_add, hout]) (by rw [hview, Nat.zero_add]; exact hspace)
  rw [hview] at ho hoin
  simp only [Nat.zero_mul, Nat.zero_add] at hoin
  have hrow : ∀ b j, b < s.params_.batch_size → j < s.params_.max_length →
      b * s.params_.max_length + j < s.params_.batch_size * s.params_.max_length := by
    intro b j hb hj
    have : (b + 1) * s.params_.max_length ≤ s.params_.batch_size * s.params_.max_length :=
      Nat.mul_le_mul_right _ hb
    rw [Nat.add_mul, Nat.one_mul] at this
    omega
  have hcell : ∀ b j, b < s.params_.batch_size → j < s.params_.max_length →
      out[b * s.params_.max_length + j]? = s.sequences_space[b * s.params_.max_length + j]? :=
    fun b j hb hj => hoin _ (Nat.zero_le _) (hrow b j hb hj)
  refine ⟨{ s with output_sequences_ := out }, ?_, rfl, ?_, ?_, ?_⟩
  · simp only [Search.Finalize, ho]
  · intro b j hb hj
    have hlt := hrow b j hb hj
    exact ⟨s.sequences_space[b * s.params_.max_length + j],
      List.getElem?_eq_getElem (by omega),
      by rw [hcell b j hb hj]; exact List.getElem?_eq_getElem (by omega)⟩
  · intro h1 b j hb hj
    rw [h1, Nat.mul_one]
    exact hcell b j hb hj
  · obtain ⟨out2, ho2, hol2, -, hoin2⟩ :=
      finalizeLoop_spec s.sequences_ s.sequences_space s.params_.batch_size 0 out
        (by rw [hview, Nat.zero_add, hol, hout]) (by rw [hview, Nat.zero_add]; exact hspace)
    rw [hview] at ho2 hoin2
    simp only [Nat.zero_mul, Nat.zero_add] at hoin2
    have heq : out2 = out := by
      apply List.ext_getElem?
      intro k
      by_cases hk : k < s.params_.batch_size * s.params_.max_length
      · rw [hoin2 k (Nat.zero_le k) hk, hoin k (Nat.zero_le k) hk]
      · rw [List.getElem?_eq_none (by omega), List.getElem?_eq_none (by omega)]
    simp only [Search.Finalize, ho2, heq]

/-- A concrete instance of the amended C11: the run of the early example,
finalized after its second step. -/
theorem Finalize_rows_witness :
    ∃ s', runLater.Finalize = some s' ∧ s'.output_sequences_ = [0, 7, 7, 0] := by
  obtain ⟨s', hs', -, -, -, -⟩ := Finalize_rows runLater (by decide) (by decide) (by decide)
  refine ⟨s', hs', ?_⟩
  have h : runLater.Finalize = some { runLater with output_sequences_ := [0, 7, 7, 0] } := by
    decide
  rw [h] at hs'
  injection hs' with hs'
  rw [← hs']

/-- Claim C11 as stated fails with two beams. Two batch elements, two beams,
prompts `[5]` and `[6]` replicated across the beams: the store rows are
`[5, 0]`, `[5, 0]`, `[6, 0]`, `[6, 0]`. `Finalize` copies store row 1 into
output row 1, so the output row of batch element 1 starts with 5, while store
row `1 * num_beams = 2`, beam 0 of batch element 1, starts with 6. -/
theorem Finalize_ignores_num_beams :
    Search.new twoBeamParams [5, 5, 6, 6] = some twoBeamStart ∧
    twoBeamStart.Finalize = some twoBeamFinal ∧
    twoBeamFinal.output_sequences_[1 * twoBeamParams.max_length + 0]? = some 5 ∧
    twoBeamStart.sequences_space[(1 * twoBeamParams.num_beams) * twoBeamParams.max_length + 0]?
      = some 6 ∧
    ¬ (∀ b j, b < twoBeamParams.batch_size → j < twoBeamParams.max_length →
        twoBeamFinal.output_sequences_[b * twoBeamParams.max_length + j]?
          = twoBeamStart.sequences_space[
              (b * twoBeamParams.num_beams) * twoBeamParams.max_length + j]?) := by
  refine ⟨by decide, by decide, by decide, by decide, ?_⟩
  intro h
  exact absurd (h 1 0 (by decide) (by decide)) (by decide)

/-! ## Theorems: malformed logits and overflow -/

/-- Claim C12, as amended. `RunModel` fails, returning no state and so writing
no score buffer, for every logits tensor whose rank is not 3. For a tensor of
rank 3 the outcome, failure or the score buffer written, does not depend on
the first or the last dimension of the shape: the last dimension is not
compared with `vocab_size`. -/
theorem RunModel_rejects_wrong_rank {α : Type} (s : Search α) (logits : Logits α)
    (hrank : logits.shape.length ≠ 3) :
    s.RunModel logits = none ∧
    ∀ (d0 d2 e0 e2 input_length : Nat) (data : List α),
      (s.RunModel ⟨[d0, input_length, d2], data⟩).map (fun s' => s'.next_token_scores)
        = (s.RunModel ⟨[e0, input_length, e2], data⟩).map (fun s' => s'.next_token_scores) := by
  refine ⟨by simp only [Search.RunModel, if_neg hrank], ?_⟩
  intro d0 d2 e0 e2 input_length data
  simp only [Search.RunModel, List.length_cons, List.length_nil, List.getElem?_cons_succ,
    List.getElem?_cons_zero]
  by_cases hz : input_length = 0 ∧ 0 < s.params_.vocab_size
  · simp [hz]
  · simp only [if_neg hz]
    cases runModelLoop data s.params_.vocab_size input_length s.params_.batch_size 0
      ((input_length - 1) * s.params_.vocab_size) s.next_token_scores <;> simp

/-- A concrete instance of the amended C12: a logits tensor of rank 2. -/
theorem RunModel_rejects_wrong_rank_witness :
    (⟨[2, 3], [1, 5, 5, 7, 7, 7]⟩ : Logits Int).shape.length ≠ 3 ∧
    twoRowSearch.RunModel ⟨[2, 3], [1, 5, 5, 7, 7, 7]⟩ = none :=
  ⟨by decide, (RunModel_rejects_wrong_rank twoRowSearch ⟨[2, 3], [1, 5, 5, 7, 7, 7]⟩
    (by decide)).1⟩

/-- Claim C12 as stated fails for a mismatched vocabulary size. The state has
`vocab_size = 2`; the model returns a tensor of shape `(1, 1, 3)`. `RunModel`
does not fail: it writes the first two logits into the score buffer. -/
theorem RunModel_accepts_wrong_vocab :
    (⟨[1, 1, 3], [5, 6, 7]⟩ : Logits Int).shape.length = 3 ∧
    (⟨[1, 1, 3], [5, 6, 7]⟩ : Logits Int).shape[2]? ≠ some runStart.params_.vocab_size ∧
    runStart.RunModel ⟨[1, 1, 3], [5, 6, 7]⟩
      = some { runStart with
          first_run_ := false, logits_ := ⟨[1, 1, 3], [5, 6, 7]⟩,
          next_token_scores := [5, 6] } := by
  refine ⟨by decide, by decide, by decide⟩

theorem GetNumElements_foldl_modEq (shape : List Int) :
    ∀ acc : Nat,
      shape.foldl (fun num_elements dim => (num_elements * (dim % 2 ^ 64).toNat) % 2 ^ 64) acc
        ≡ acc * (shape.map fun dim => (dim % 2 ^ 64).toNat).prod [MOD 2 ^ 64] := by
  induction shape with
  | nil =>
    intro acc
    simp only [List.foldl_nil, List.map_nil, List.prod_nil, Nat.mul_one]
    exact Nat.ModEq.refl _
  | cons d rest ih =>
    intro acc
    simp only [List.foldl_cons, List.map_cons, List.prod_cons]
    refine (ih _).trans ?_
    rw [← Nat.mul_assoc]
    exact Nat.ModEq.mul_right _ (Nat.mod_modEq _ _)

theorem GetNumElements_modEq (shape : List Int) :
    StaticBuffer.GetNumElements shape
      ≡ (shape.map fun dim => (dim % 2 ^ 64).toNat).prod [MOD 2 ^ 64] := by
  have := GetNumElements_foldl_modEq shape 1
  rw [Nat.one_mul] at this
  exact this

theorem toNat_emod_modEq (d : Int) (hd : 0 ≤ d) :
    (d % 2 ^ 64).toNat ≡ d.toNat [MOD 2 ^ 64] := by
  obtain ⟨n, rfl⟩ : ∃ n : Nat, d = (n : Int) := ⟨d.toNat, (Int.toNat_of_nonneg hd).symm⟩
  have h : ((n : Int) % 2 ^ 64) = ((n % 2 ^ 64 : Nat) : Int) := by
    push_cast
    rfl
  rw [h, Int.toNat_natCast, Int.toNat_natCast]
  exact Nat.mod_modEq _ _

theorem prod_dims_modEq (shape : List Int) (hdims : ∀ d, d ∈ shape → 0 ≤ d) :
    (shape.map fun dim => (dim % 2 ^ 64).toNat).prod
      ≡ (shape.map Int.toNat).prod [MOD 2 ^ 64] := by
  induction shape with
  | nil => exact Nat.ModEq.refl _
  | cons d rest ih =>
    simp only [List.map_cons, List.prod_cons]
    exact Nat.ModEq.mul (toNat_emod_modEq d (hdims d (List.mem_cons_self _ _)))
      (ih fun x hx => hdims x (List.mem_cons_of_mem _ hx))

/-- Claim C14. On the first `GetOrCreateTensor` call of an empty buffer, for a
supported element type and a shape with non-negative dimensions whose byte
count `element_size * product(shape)` fits in `size_t`: the allocator is asked
for exactly that many bytes, the same number is recorded as capacity, and the
returned view starts at the new block and spans all of it. The element size is
2 for FLOAT16, 4 for FLOAT, 4 for INT32 and 8 for INT64, and the product of
the empty shape is 1. -/
theorem GetOrCreateTensor_first_call (sb : StaticBuffer) (a : Allocator) (shape : List Int)
    (type : ONNXTensorElementDataType) (e : Nat)
    (hempty : sb.buffer_ = 0)
    (htype : StaticBuffer.GetElementSize type = some e)
    (hdims : ∀ d, d ∈ shape → 0 ≤ d)
    (hfits : e * (shape.map Int.toNat).prod < 2 ^ 64) :
    sb.GetOrCreateTensor a shape type
      = some ((⟨(a.Alloc (e * (shape.map Int.toNat).prod)).1, e * (shape.map Int.toNat).prod,
                shape, type⟩ : OrtValue),
              (⟨(a.Alloc (e * (shape.map Int.toNat).prod)).1,
                e * (shape.map Int.toNat).prod⟩ : StaticBuffer),
              (a.Alloc (e * (shape.map Int.toNat).prod)).2) ∧
    (a.Alloc (e * (shape.map Int.toNat).prod)).2.allocs
      = a.allocs ++ [e * (shape.map Int.toNat).prod] ∧
    StaticBuffer.GetElementSize .FLOAT16 = some 2 ∧
    StaticBuffer.GetElementSize .FLOAT = some 4 ∧
    StaticBuffer.GetElementSize .INT32 = some 4 ∧
    StaticBuffer.GetElementSize .INT64 = some 8 ∧
    (([] : List Int).map Int.toNat).prod = 1 := by
  have hbytes : (e * StaticBuffer.GetNumElements shape) % 2 ^ 64
      = e * (shape.map Int.toNat).prod := by
    have h1 : e * StaticBuffer.GetNumElements shape
        ≡ e * (shape.map Int.toNat).prod [MOD 2 ^ 64] :=
      Nat.ModEq.mul_left _ ((GetNumElements_modEq shape).trans (prod_dims_modEq shape hdims))
    rw [h1]
    exact Nat.mod_eq_of_lt hfits
  refine ⟨?_, rfl, rfl, rfl, rfl, rfl, rfl⟩
  simp only [StaticBuffer.GetOrCreateTensor, htype, hempty, if_true, hbytes]

/-- A concrete instance of C14: a first request of 2 × 3 floats. -/
theorem GetOrCreateTensor_first_call_witness :
    (StaticBuffer.GetOrCreateTensor ⟨0, 0⟩ ⟨fun n _ => 4096 * (n + 1), []⟩ [2, 3] .FLOAT).map
        (fun r => (r.1, r.2.1, r.2.2.allocs))
      = some (⟨4096, 24, [2, 3], .FLOAT⟩, ⟨4096, 24⟩, [24]) := by
  rw [(GetOrCreateTensor_first_call ⟨0, 0⟩ ⟨fun n _ => 4096 * (n + 1), []⟩ [2, 3] .FLOAT 4 rfl rfl
    (by
      intro d hd
      simp only [List.mem_cons, List.mem_singleton, List.not_mem_nil, or_false] at hd
      rcases hd with rfl | rfl <;> decide)
    (by decide)).1]
  decide

/-! ## Theorems: minimum length -/

theorem minLengthLoop_spec {α : Type} (lowest : α) (params : SearchParams)
    (heos : 0 ≤ params.eos_token_id ∧ params.eos_token_id < (params.vocab_size : Int)) :
    ∀ (remaining i : Nat) (scores : List α),
      i + remaining ≤ params.BatchBeamSize →
      params.BatchBeamSize * params.vocab_size ≤ scores.length →
      ∃ out, minLengthLoop lowest params remaining i scores = some out ∧
        out.length = scores.length ∧
        (∀ k, (k < i * params.vocab_size ∨ (i + remaining) * params.vocab_size ≤ k) →
          out[k]? = scores[k]?) ∧
        (∀ (r w : Nat), i ≤ r → r < i + remaining → w < params.vocab_size →
          out[r * params.vocab_size + w]? =
            if (w : Int) = params.eos_token_id then some lowest
            else scores[r * params.vocab_size + w]?) := by
  obtain ⟨h0, hV⟩ := heos
  obtain ⟨n0, hn0⟩ : ∃ n0 : Nat, params.eos_token_id = (n0 : Int) :=
    ⟨params.eos_token_id.toNat, (Int.toNat_of_nonneg h0).symm⟩
  have hn0V : n0 < params.vocab_size := by
    rw [hn0] at hV
    exact_mod_cast hV
  intro remaining
  induction remaining with
  | zero =>
    intro i scores _ _
    exact ⟨scores, rfl, rfl, fun _ _ => rfl, fun r w h1 h2 => by omega⟩
  | succ n ih =>
    intro i scores hi hscores
    have hiB : i < params.BatchBeamSize := by omega
    have e1 : (i + 1) * params.vocab_size = i * params.vocab_size + params.vocab_size := by ring
    have e3 : (i + (n + 1)) * params.vocab_size
        = i * params.vocab_size + params.vocab_size + n * params.vocab_size := by ring
    have e4 : (i + 1 + n) * params.vocab_size
        = i * params.vocab_size + params.vocab_size + n * params.vocab_size := by ring
    have b1 : (i + 1) * params.vocab_size ≤ params.BatchBeamSize * params.vocab_size :=
      Nat.mul_le_mul_right _ hiB
    have hrow : i * params.vocab_size + params.vocab_size ≤ scores.length := by omega
    have hidx : Span.index ⟨i * params.vocab_size, params.vocab_size⟩ params.eos_token_id
        = some (i * params.vocab_size + n0) := by
      simp only [Span.index]
      rw [if_pos ⟨h0, hV⟩, hn0, Int.toNat_ofNat]
    have hpos : i * params.vocab_size + n0 < scores.length := by omega
    obtain ⟨out, hout, hol, hoout, hoin⟩ :=
      ih (i + 1) (scores.set (i * params.vocab_size + n0) lowest) (by omega)
        (by rw [List.length_set]; exact hscores)
    refine ⟨out, ?_, by rw [hol, List.length_set], ?_, ?_⟩
    · simp only [minLengthLoop, GetScores, if_pos hiB, subspan, if_pos hrow, hidx, hout]
    · intro k hk
      rw [hoout k (by omega), List.getElem?_set_ne (by omega)]
    · intro r w hr1 hr2 hw
      rcases Nat.eq_or_lt_of_le hr1 with heq | hlt
      · subst heq
        rw [hoout _ (by omega)]
        by_cases hwe : w = n0
        · subst hwe
          rw [List.getElem?_set_self hpos, if_pos hn0.symm]
        · rw [List.getElem?_set_ne (by omega), if_neg]
          rw [hn0]
          exact fun h => hwe (by exact_mod_cast h)
      · have b3 : (i + 1) * params.vocab_size ≤ r * params.vocab_size :=
          Nat.mul_le_mul_right _ hlt
        rw [hoin r w (by omega) (by omega) hw, List.getElem?_set_ne (by omega)]

/-- Claim C15. If the sequence length is at least `min_length`, `MinLength`
returns the state unchanged, so the whole score buffer is unchanged. Otherwise,
in a state whose score buffer holds `batch_beam_size` rows of `vocab_size`
scores and whose eos id is a token id, it succeeds, changes nothing but the
score buffer, and for every row `i < batch_beam_size` leaves
`score[i][eos_token_id] = lowest` and every other entry `score[i][v]`,
`v ≠ eos_token_id`, as it was. -/
theorem MinLength_frame {α : Type} (lowest : α) (s : Search α) (min_length : Int)
    (hscores : s.next_token_scores.length = s.params_.BatchBeamSize * s.params_.vocab_size)
    (heos : 0 ≤ s.params_.eos_token_id ∧ s.params_.eos_token_id < (s.params_.vocab_size : Int)) :
    ((s.sequences_.GetSequenceLength : Int) ≥ min_length →
      Processors.MinLength lowest s min_length = some s) ∧
    (¬ (s.sequences_.GetSequenceLength : Int) ≥ min_length →
      ∃ s', Processors.MinLength lowest s min_length = some s' ∧
        s' = { s with next_token_scores := s'.next_token_scores } ∧
        s'.next_token_scores.length = s.next_token_scores.length ∧
        ∀ (i v : Nat), i < s.params_.BatchBeamSize → v < s.params_.vocab_size →
          s'.next_token_scores[i * s.params_.vocab_size + v]? =
            if (v : Int) = s.params_.eos_token_id then some lowest
            else s.next_token_scores[i * s.params_.vocab_size + v]?) := by
  refine ⟨?_, ?_⟩
  · intro h
    simp only [Processors.MinLength, if_pos h]
  · intro h
    obtain ⟨out, hout, hol, -, hoin⟩ :=
      minLengthLoop_spec lowest s.params_ heos s.params_.BatchBeamSize 0 s.next_token_scores
        (by omega) (by omega)
    refine ⟨{ s with next_token_scores := out }, ?_, rfl, hol, ?_⟩
    · simp only [Processors.MinLength, if_neg h, hout]
    · intro i v hi hv
      exact hoin i v (Nat.zero_le i) (by omega) hv

/-- A concrete instance of C15: sequence length 2, minimum length 3, eos id 1,
scores `[0, 5]`, lowest score `-100`. -/
theorem MinLength_frame_witness :
    (runAfterEos.next_token_scores.length
        = runAfterEos.params_.BatchBeamSize * runAfterEos.params_.vocab_size ∧
      ¬ (runAfterEos.sequences_.GetSequenceLength : Int) ≥ 3) ∧
    Processors.MinLength (-100) runAfterEos 3
      = some { runAfterEos with next_token_scores := [0, -100] } ∧
    Processors.MinLength (-100) runAfterEos 2 = some runAfterEos := by
  refine ⟨⟨by decide, by decide⟩, by decide, ?_⟩
  exact (MinLength_frame (-100) runAfterEos 2 (by decide) (by decide)).1 (by decide)

/-! ## Theorems: prompt installation -/

theorem setSequenceRow_spec (ids : List Int) (seq max i : Nat) :
    ∀ (remaining j : Nat) (buf : List Int),
      j + remaining = seq → i * seq + seq ≤ ids.length → i * max + seq ≤ buf.length →
      ∃ out, setSequenceRow ids seq max i remaining j buf = some out ∧
        out.length = buf.length ∧
        (∀ k, (k < i * max + j ∨ i * max + seq ≤ k) → out[k]? = buf[k]?) ∧
        (∀ c, j ≤ c → c < seq → out[i * max + c]? = ids[i * seq + c]?) := by
  intro remaining
  induction remaining with
  | zero =>
    intro j buf _ _ _
    exact ⟨buf, rfl, rfl, fun _ _ => rfl, fun c h1 h2 => by omega⟩
  | succ n ih =>
    intro j buf hj hids hbuf
    have hr : i * seq + j < ids.length := by omega
    have hw : i * max + j < buf.length := by omega
    have hget : ids[i * seq + j]? = some ids[i * seq + j] := List.getElem?_eq_getElem hr
    obtain ⟨out, hout, hol, hoout, hoin⟩ :=
      ih (j + 1) (buf.set (i * max + j) ids[i * seq + j]) (by omega) hids
        (by rw [List.length_set]; exact hbuf)
    refine ⟨out, ?_, by rw [hol, List.length_set], ?_, ?_⟩
    · simp only [setSequenceRow, hget, if_pos hw, hout]
    · intro k hk
      rw [hoout k (by omega), List.getElem?_set_ne (by omega)]
    · intro c hc1 hc2
      rcases Nat.eq_or_lt_of_le hc1 with heq | hlt
      · subst heq
        rw [hoout _ (by omega), List.getElem?_set_self hw, hget]
      · exact hoin c (by omega) hc2

theorem setSequenceLoop_spec (ids : List Int) (seq max : Nat) (hseq : seq ≤ max) :
    ∀ (remaining i : Nat) (buf : List Int),
      (i + remaining) * seq ≤ ids.length → (i + remaining) * max ≤ buf.length →
      ∃ out, setSequenceLoop ids seq max remaining i buf = some out ∧
        out.length = buf.length ∧
        (∀ k, (k < i * max ∨ (i + remaining) * max ≤ k) → out[k]? = buf[k]?) ∧
        (∀ r c, i ≤ r → r < i + remaining → c < max →
          out[r * max + c]? = if c < seq then ids[r * seq + c]? else buf[r * max + c]?) := by
  intro remaining
  induction remaining with
  | zero =>
    intro i buf _ _
    exact ⟨buf, rfl, rfl, fun _ _ => rfl, fun r c h1 h2 => by omega⟩
  | succ n ih =>
    intro i buf hids hbuf
    have e1 : (i + (n + 1)) * seq = i * seq + seq + n * seq := by ring
    have e2 : (i + (n + 1)) * max = i * max + max + n * max := by ring
    have e3 : (i + 1 + n) * seq = i * seq + seq + n * seq := by ring
    have e4 : (i + 1 + n) * max = i * max + max + n * max := by ring
    have e5 : (i + 1) * max = i * max + max := by ring
    obtain ⟨mid, hmid, hml, hmout, hmin⟩ :=
      setSequenceRow_spec ids seq max i seq 0 buf (by omega) (by omega) (by omega)
    obtain ⟨out, hout, hol, hoout, hoin⟩ := ih (i + 1) mid (by omega) (by omega)
    refine ⟨out, ?_, by rw [hol, hml], ?_, ?_⟩
    · simp only [setSequenceLoop, hmid, hout]
    · intro k hk
      rw [hoout k (by omega), hmout k (by omega)]
    · intro r c hr1 hr2 hc
      rcases Nat.eq_or_lt_of_le hr1 with heq | hlt
      · subst heq
        rw [hoout _ (by omega)]
        by_cases hcs : c < seq
        · rw [if_pos hcs, hmin c (Nat.zero_le c) hcs]
        · rw [if_neg hcs, hmout _ (by omega)]
      · have b3 : (i + 1) * max ≤ r * max := Nat.mul_le_mul_right _ hlt
        rw [hoin r c (by omega) (by omega) hc, hmout _ (by omega)]

theorem batchBeamSize_le (params : SearchParams) (hbeams : params.num_beams ≤ 2) :
    params.BatchBeamSize * params.max_length ≤ 2 * params.batch_size * params.max_length := by
  apply Nat.mul_le_mul_right
  simp only [SearchParams.BatchBeamSize]
  rw [Nat.mul_comm 2]
  exact Nat.mul_le_mul_left _ hbeams

/-- Claim C16. Let `prompt_length ≤ max_length`, at most two beams, size
products that fit in `size_t`, and a prompt of `batch_beam_size * prompt_length`
token ids, row-major. Then the constructor succeeds, and after its zero-fill
and `SetSequence` the backing store (of `2 * batch_size * max_length` entries)
satisfies, for every row `i < batch_beam_size` and column `j < max_length`:
`store[i * max_length + j] = prompt[i * prompt_length + j]` when
`j < prompt_length`, and `0` when `j ≥ prompt_length`. -/
theorem SetSequence_installs_prompt {α : Type} [Zero α] (params : SearchParams)
    (ids : List Int)
    (hprompt : params.sequence_length ≤ params.max_length)
    (hbeams : params.num_beams ≤ 2)
    (hfit0 : 2 * params.batch_size < 2 ^ 64)
    (hfit1 : 2 * params.batch_size * params.max_length < 2 ^ 64)
    (hfit2 : params.batch_size * params.vocab_size < 2 ^ 64)
    (hids : ids.length = params.BatchBeamSize * params.sequence_length) :
    ∃ s0 : Search α, Search.new params ids = some s0 ∧
      s0.sequences_space.length = 2 * params.batch_size * params.max_length ∧
      ∀ i j, i < params.BatchBeamSize → j < params.max_length →
        (j < params.sequence_length →
          ∃ token, ids[i * params.sequence_length + j]? = some token ∧
            s0.sequences_space[i * params.max_length + j]? = some token) ∧
        (params.sequence_length ≤ j →
          s0.sequences_space[i * params.max_length + j]? = some 0) := by
  have hle := batchBeamSize_le params hbeams
  obtain ⟨out, hout, hol, -, hoin⟩ :=
    setSequenceLoop_spec ids params.sequence_length params.max_length hprompt
      params.BatchBeamSize 0 (List.replicate (2 * params.batch_size * params.max_length) 0)
      (by rw [Nat.zero_add, hids]) (by rw [Nat.zero_add, List.length_replicate]; exact hle)
  rw [List.length_replicate] at hol
  refine ⟨({ params_ := params, first_run_ := true, logits_ := ⟨[], []⟩,
              sequences_space := out,
              sequences_ := Sequences.Init params.batch_size params.sequence_length
                params.max_length,
              eos_meet := List.replicate params.batch_size false,
              next_tokens := List.replicate params.batch_size 0,
              next_token_scores := List.replicate (params.batch_size * params.vocab_size) 0,
              done_ := false,
              output_sequences_ := List.replicate (params.batch_size * params.max_length) 0 }
            : Search α), ?_, hol, ?_⟩
  · simp only [Search.new, safeMul, if_pos hfit0, if_pos hfit1, if_pos hfit2,
      Search.SetSequence, hout]
  · intro i j hi hj
    have hcell := hoin i j (Nat.zero_le i) (by omega) hj
    have b1 : (i + 1) * params.max_length ≤ params.BatchBeamSize * params.max_length :=
      Nat.mul_le_mul_right _ hi
    have b2 : (i + 1) * params.sequence_length
        ≤ params.BatchBeamSize * params.sequence_length := Nat.mul_le_mul_right _ hi
    rw [Nat.add_mul, Nat.one_mul] at b1 b2
    refine ⟨?_, ?_⟩
    · intro hjs
      have hlt : i * params.sequence_length + j < ids.length := by omega
      refine ⟨ids[i * params.sequence_length + j], List.getElem?_eq_getElem hlt, ?_⟩
      simp only at hcell
      rw [hcell, if_pos hjs]
      exact List.getElem?_eq_getElem hlt
    · intro hjs
      simp only at hcell
      rw [hcell, if_neg (by omega), List.getElem?_replicate, if_pos (by omega)]

/-- A concrete instance of C16: two batch elements, two beams, prompt length 1,
maximum length 2. -/
theorem SetSequence_installs_prompt_witness :
    ∃ s0 : Search Int, Search.new twoBeamParams [5, 5, 6, 6] = some s0 ∧
      s0.sequences_space = [5, 0, 5, 0, 6, 0, 6, 0] := by
  obtain ⟨s0, hs0, -, -⟩ := SetSequence_installs_prompt (α := Int) twoBeamParams [5, 5, 6, 6]
    (by decide) (by decide) (by decide) (by decide) (by decide) (by decide)
  refine ⟨s0, hs0, ?_⟩
  have h : Search.new twoBeamParams [5, 5, 6, 6] = some twoBeamStart := by decide
  rw [h] at hs0
  injection hs0 with hs0
  rw [← hs0]
  rfl

/-- Claim C20. For parameters with `sequence_length ≤ max_length` and one or
two beams, input ids of exactly `batch_beam_size * sequence_length` elements
and a sequences buffer of `2 * batch_size * max_length` elements: every index
`i * max_length + j` that `SetSequence` writes lies inside the buffer, every
index `i * sequence_length + j` it reads lies inside the input, and
`SetSequence` completes. With three beams (batch size 1, lengths 1) the
written index of row 2 is 2, outside the buffer of 2 elements, and the
constructor fails. -/
theorem SetSequence_in_bounds {α : Type} (s : Search α) (ids : List Int)
    (hseq : s.params_.sequence_length ≤ s.params_.max_length)
    (_hbeams1 : 1 ≤ s.params_.num_beams) (hbeams2 : s.params_.num_beams ≤ 2)
    (hids : ids.length = s.params_.BatchBeamSize * s.params_.sequence_length)
    (hspace : s.sequences_space.length = 2 * s.params_.batch_size * s.params_.max_length) :
    (∀ i j, i < s.params_.BatchBeamSize → j < s.params_.sequence_length →
      i * s.params_.max_length + j < s.sequences_space.length ∧
      i * s.params_.sequence_length + j < ids.length) ∧
    (∃ s', s.SetSequence ids = some s') ∧
    (∃ (p : SearchParams) (i j : Nat), 2 < p.num_beams ∧ p.sequence_length ≤ p.max_length ∧
      i < p.BatchBeamSize ∧ j < p.sequence_length ∧
      2 * p.batch_size * p.max_length ≤ i * p.max_length + j ∧
      (Search.new p (List.replicate (p.BatchBeamSize * p.sequence_length) 0)
        : Option (Search Int)) = none) := by
  have hle := batchBeamSize_le s.params_ hbeams2
  refine ⟨?_, ?_, ?_⟩
  · intro i j hi hj
    have b1 : (i + 1) * s.params_.max_length ≤ s.params_.BatchBeamSize * s.params_.max_length :=
      Nat.mul_le_mul_right _ hi
    have b2 : (i + 1) * s.params_.sequence_length
        ≤ s.params_.BatchBeamSize * s.params_.sequence_length := Nat.mul_le_mul_right _ hi
    rw [Nat.add_mul, Nat.one_mul] at b1 b2
    constructor
    · omega
    · omega
  · obtain ⟨out, hout, -, -, -⟩ :=
      setSequenceLoop_spec ids s.params_.sequence_length s.params_.max_length hseq
        s.params_.BatchBeamSize 0 s.sequences_space
        (by rw [Nat.zero_add, hids]) (by rw [Nat.zero_add, hspace]; exact hle)
    exact ⟨{ s with sequences_space := out }, by simp only [Search.SetSequence, hout]⟩
  · exact ⟨⟨1, 3, 1, 1, 2, 1, 0⟩, 2, 0, by decide, by decide, by decide, by decide, by decide,
      by decide⟩

/-- A concrete instance of C20: the two-beam state, its prompt installed
again. -/
theorem SetSequence_in_bounds_witness :
    (twoBeamStart.sequences_space.length
        = 2 * twoBeamStart.params_.batch_size * twoBeamStart.params_.max_length) ∧
    ∃ s', twoBeamStart.SetSequence [5, 5, 6, 6] = some s' :=
  ⟨by decide,
    (SetSequence_in_bounds twoBeamStart [5, 5, 6, 6] (by decide) (by decide) (by decide)
      (by decide) (by decide)).2.1⟩

/-! ## Theorems: further properties of the processors and of selection -/

theorem ext_rows {β : Type} (l1 l2 : List β) (B V : Nat) (h1 : l1.length = B * V)
    (h2 : l2.length = B * V)
    (h : ∀ r v, r < B → v < V → l1[r * V + v]? = l2[r * V + v]?) : l1 = l2 := by
  apply List.ext_getElem?
  intro k
  by_cases hk : k < B * V
  · have hV : 0 < V := by
      rcases Nat.eq_zero_or_pos V with h0 | h0
      · rw [h0, Nat.mul_zero] at hk
        omega
      · exact h0
    have hdecomp : k = k / V * V + k % V := by
      rw [Nat.mul_comm]
      exact (Nat.div_add_mod k V).symm
    have hr : k / V < B := Nat.div_lt_of_lt_mul (by rw [Nat.mul_comm]; exact hk)
    rw [hdecomp]
    exact h (k / V) (k % V) hr (Nat.mod_lt k hV)
  · rw [List.getElem?_eq_none (by omega), List.getElem?_eq_none (by omega)]

theorem RepetitionPenalty_cells {α : Type} [LinearOrderedField α] (s : Search α) (p : α)
    (hscores : s.next_token_scores.length = s.params_.BatchBeamSize * s.params_.vocab_size)
    (hspace : s.params_.BatchBeamSize * s.sequences_.max_length ≤ s.sequences_space.length)
    (hids : ∀ (i : Nat) (sequence : List Int), i < s.params_.BatchBeamSize →
      s.sequences_.GetSequence s.sequences_space i = some sequence →
      ∀ w, w ∈ sequence → 0 ≤ w ∧ w < (s.params_.vocab_size : Int)) :
    ∃ out, Processors.RepetitionPenalty s p = some { s with next_token_scores := out } ∧
      out.length = s.next_token_scores.length ∧
      ∀ i, i < s.params_.BatchBeamSize →
        s.sequences_.GetSequence s.sequences_space i
          = some (Span.read ⟨i * s.sequences_.max_length, s.sequences_.max_length⟩
              s.sequences_space) ∧
        ∀ w : Nat, w < s.params_.vocab_size →
          ∃ score, s.next_token_scores[i * s.params_.vocab_size + w]? = some score ∧
            out[i * s.params_.vocab_size + w]? = some
              (if (w : Int) ∈ Span.read ⟨i * s.sequences_.max_length, s.sequences_.max_length⟩
                  s.sequences_space
               then (if score < 0 then score * p else score / p) else score) := by
  have hview : ∀ i, i < s.params_.BatchBeamSize →
      s.sequences_.GetSequence s.sequences_space i
        = some (Span.read ⟨i * s.sequences_.max_length, s.sequences_.max_length⟩
            s.sequences_space) := by
    intro i hi
    have b : (i + 1) * s.sequences_.max_length
        ≤ s.params_.BatchBeamSize * s.sequences_.max_length := Nat.mul_le_mul_right _ hi
    rw [Nat.add_mul, Nat.one_mul] at b
    simp only [Sequences.GetSequence, subspan, if_pos (by omega : i * s.sequences_.max_length
      + s.sequences_.max_length ≤ s.sequences_space.length)]
  obtain ⟨out, hout, hol, -, hoin⟩ :=
    repetitionPenaltyLoop_spec p s.params_ s.sequences_ s.sequences_space
      (fun r hr w hw => hids r _ hr (hview r hr) w hw) hspace s.params_.BatchBeamSize 0
      s.next_token_scores (by omega) (by omega)
  refine ⟨out, by simp only [Processors.RepetitionPenalty, hout], hol, ?_⟩
  intro i hi
  refine ⟨hview i hi, ?_⟩
  intro w hw
  have b : (i + 1) * s.params_.vocab_size
      ≤ s.params_.BatchBeamSize * s.params_.vocab_size := Nat.mul_le_mul_right _ hi
  rw [Nat.add_mul, Nat.one_mul] at b
  have hlt : i * s.params_.vocab_size + w < s.next_token_scores.length := by omega
  exact ⟨s.next_token_scores[i * s.params_.vocab_size + w], List.getElem?_eq_getElem hlt,
    hoin i w _ (Nat.zero_le i) (by omega) hw (List.getElem?_eq_getElem hlt)⟩

/-- Claim C17. In a state whose score buffer holds `batch_beam_size` rows of
`vocab_size` scores, whose sequence store holds the row views and whose token
ids are in range (exact arithmetic in an ordered field): for every penalty
`p > 1`, `RepetitionPenalty` succeeds and no score increases; the score of a
token id that occurs in the row's sequence view and is not zero decreases
strictly. With `p = 1`, `RepetitionPenalty` returns the state unchanged. -/
theorem RepetitionPenalty_monotone {α : Type} [LinearOrderedField α] (s : Search α) (p : α)
    (hscores : s.next_token_scores.length = s.params_.BatchBeamSize * s.params_.vocab_size)
    (hspace : s.params_.BatchBeamSize * s.sequences_.max_length ≤ s.sequences_space.length)
    (hids : ∀ (i : Nat) (sequence : List Int), i < s.params_.BatchBeamSize →
      s.sequences_.GetSequence s.sequences_space i = some sequence →
      ∀ w, w ∈ sequence → 0 ≤ w ∧ w < (s.params_.vocab_size : Int)) :
    (1 < p →
      ∃ s', Processors.RepetitionPenalty s p = some s' ∧
        ∀ i, i < s.params_.BatchBeamSize →
          ∃ sequence, s.sequences_.GetSequence s.sequences_space i = some sequence ∧
            ∀ v : Nat, v < s.params_.vocab_size →
              ∃ old new, s.next_token_scores[i * s.params_.vocab_size + v]? = some old ∧
                s'.next_token_scores[i * s.params_.vocab_size + v]? = some new ∧
                new ≤ old ∧ ((v : Int) ∈ sequence → old ≠ 0 → new < old)) ∧
    Processors.RepetitionPenalty s 1 = some s := by
  refine ⟨?_, ?_⟩
  · intro hp
    obtain ⟨out, hout, -, hcells⟩ := RepetitionPenalty_cells s p hscores hspace hids
    refine ⟨{ s with next_token_scores := out }, hout, ?_⟩
    intro i hi
    obtain ⟨hview, hrow⟩ := hcells i hi
    refine ⟨_, hview, ?_⟩
    intro v hv
    obtain ⟨old, hold, hnew⟩ := hrow v hv
    refine ⟨old, _, hold, hnew, ?_, ?_⟩
    · by_cases hin : (v : Int) ∈ Span.read
          ⟨i * s.sequences_.max_length, s.sequences_.max_length⟩ s.sequences_space
      · rw [if_pos hin]
        by_cases hneg : old < 0
        · rw [if_pos hneg]
          nlinarith [mul_pos (neg_pos.mpr hneg) (sub_pos.mpr hp)]
        · rw [if_neg hneg]
          exact div_le_self (not_lt.mp hneg) (le_of_lt hp)
      · rw [if_neg hin]
    · intro hin hne
      rw [if_pos hin]
      by_cases hneg : old < 0
      · rw [if_pos hneg]
        nlinarith [mul_pos (neg_pos.mpr hneg) (sub_pos.mpr hp)]
      · rw [if_neg hneg]
        exact div_lt_self (lt_of_le_of_ne (not_lt.mp hneg) (Ne.symm hne)) hp
  · obtain ⟨out, hout, hol, hcells⟩ := RepetitionPenalty_cells s 1 hscores hspace hids
    have heq : out = s.next_token_scores := by
      apply ext_rows out s.next_token_scores s.params_.BatchBeamSize s.params_.vocab_size
        (by rw [hol, hscores]) hscores
      intro r v hr hv
      obtain ⟨score, hold, hnew⟩ := (hcells r hr).2 v hv
      rw [hnew, hold]
      simp only [mul_one, div_one, ite_self]
    rw [hout, heq]

/-- A concrete instance of C17: penalty 2 on the scores `[4, -6, 8, 3]` of a
row whose sequence view is `[1, 2, 1]`. -/
theorem RepetitionPenalty_monotone_witness :
    ∃ s', Processors.RepetitionPenalty penaltySearch 2 = some s' ∧
      s'.next_token_scores = [4, -12, 4, 3] ∧
      Processors.RepetitionPenalty penaltySearch 1 = some penaltySearch := by
  have hw := RepetitionPenalty_monotone penaltySearch 2 (by decide) (by decide)
    (by
      intro i sequence hi hseq w hw
      have hi0 : i = 0 := by
        have : penaltySearch.params_.BatchBeamSize = 1 := by decide
        omega
      subst hi0
      have hrow : penaltySearch.sequences_.GetSequence penaltySearch.sequences_space 0
          = some [1, 2, 1] := by decide
      rw [hrow] at hseq
      injection hseq with hseq
      subst hseq
      simp only [List.mem_cons, List.mem_singleton, List.not_mem_nil, or_false] at hw
      rcases hw with rfl | rfl | rfl <;> decide)
  obtain ⟨s', hs', -⟩ := hw.1 (by norm_num)
  refine ⟨s', hs', ?_, by decide!⟩
  have h : Processors.RepetitionPenalty penaltySearch 2
      = some { penaltySearch with next_token_scores := [4, -12, 4, 3] } := by
    decide!
  rw [h] at hs'
  injection hs' with hs'
  rw [← hs']

/-- Claim C18. For a logits tensor of shape `(batch_size, 1, vocab_size)`,
`vocab_size ≥ 1`, and no processor between `RunModel` and
`NextTokensFromLogits`: `RunModel` makes the score buffer equal to the logits
data, so the tokens `NextTokensFromLogits` selects from the model's logits are
those the selection over the rows of `next_token_scores` gives, and each is
the least index of a maximal score of its row of the score buffer. -/
theorem NextTokensFromLogits_agrees_with_scores {α : Type} [LinearOrder α] (s : Search α)
    (logits : Logits α)
    (hV : 1 ≤ s.params_.vocab_size)
    (hshape : logits.shape = [s.params_.batch_size, 1, s.params_.vocab_size])
    (hdata : logits.data.length = s.params_.batch_size * s.params_.vocab_size)
    (hscores : s.next_token_scores.length = s.params_.batch_size * s.params_.vocab_size)
    (hnt : s.params_.batch_size ≤ s.next_tokens.length) :
    ∃ s1 s2, s.RunModel logits = some s1 ∧
      s1.next_token_scores = logits.data ∧
      s1.NextTokensFromLogits = some s2 ∧
      s1.NextTokensFromScores = some s2 ∧
      ∀ i, i < s.params_.batch_size →
        ∃ t : Nat, s2.next_tokens[i]? = some (t : Int) ∧
          IsLeastArgmax s1.next_token_scores (i * s.params_.vocab_size) s.params_.vocab_size t := by
  obtain ⟨out, hout, holen, -, hoin⟩ :=
    runModelLoop_spec logits.data s.params_.vocab_size 0 s.params_.batch_size 0
      s.next_token_scores
      (by rw [hdata, Nat.zero_add, Nat.zero_add, Nat.one_mul])
      (by rw [hscores, Nat.zero_add])
  simp only [Nat.zero_mul, Nat.add_zero, Nat.zero_add, Nat.one_mul] at hout hoin
  have heq : out = logits.data := by
    apply ext_rows out logits.data s.params_.batch_size s.params_.vocab_size
      (by rw [holen, hscores]) hdata
    intro r v hr hv
    obtain ⟨x, hx1, hx2⟩ := hoin r v (Nat.zero_le r) hr hv
    rw [hx1, hx2]
  rw [heq] at hout
  obtain ⟨nt, hnt', -, -, -, hmid⟩ :=
    nextTokensLoop_spec logits.data s.params_.vocab_size hV s.params_.batch_size 0 s.next_tokens
      (by rw [Nat.zero_add, hdata]) (by rw [Nat.zero_add]; exact hnt)
  simp only [Nat.zero_mul] at hnt'
  refine ⟨{ s with first_run_ := false, logits_ := logits, next_token_scores := logits.data },
    { s with first_run_ := false, logits_ := logits, next_token_scores := logits.data,
             next_tokens := nt }, ?_, rfl, ?_, ?_, ?_⟩
  · simp [Search.RunModel, hshape, hout]
  · simp only [Search.NextTokensFromLogits, hnt']
  · simp only [Search.NextTokensFromScores, hnt']
  · intro i hi
    exact hmid i (Nat.zero_le i) (by rw [Nat.zero_add]; exact hi)

/-- A concrete instance of C18: two rows of three scores, one position. -/
theorem NextTokensFromLogits_agrees_with_scores_witness :
    ∃ s1 s2, Search.RunModel { twoRowSearch with next_token_scores := [0, 0, 0, 0, 0, 0] }
        ⟨[2, 1, 3], [1, 5, 5, 7, 7, 7]⟩ = some s1 ∧
      s1.NextTokensFromLogits = some s2 ∧ s1.NextTokensFromScores = some s2 := by
  obtain ⟨s1, s2, h1, -, h2, h3, -⟩ := NextTokensFromLogits_agrees_with_scores
    { twoRowSearch with next_token_scores := [0, 0, 0, 0, 0, 0] }
    ⟨[2, 1, 3], [1, 5, 5, 7, 7, 7]⟩ (by decide) (by decide) (by decide) (by decide) (by decide)
  exact ⟨s1, s2, h1, h2, h3⟩

/-- Claim C19. In every state whose flag vector has one entry per selected
token, whatever the tokens, flags, `done`, eos id and pad id are (the pad id
may equal the eos id), `CheckForEOS` succeeds, and applied to its own result it
succeeds again and returns that result: the same `next_tokens`, `eos_meet` and
`done`. -/
theorem CheckForEOS_idempotent {α : Type} (s : Search α)
    (hlen : s.eos_meet.length = s.next_tokens.length) :
    ∃ s1, s.CheckForEOS = some s1 ∧ s1.CheckForEOS = some s1 := by
  obtain ⟨nt1, em1, hloop1, hl1, hl2, -, hin1⟩ :=
    checkForEOSLoop_spec s.params_.eos_token_id s.params_.pad_token_id s.next_tokens.length 0
      s.next_tokens s.eos_meet (by omega) (by omega)
  obtain ⟨nt2, em2, hloop2, hl3, hl4, -, hin2⟩ :=
    checkForEOSLoop_spec s.params_.eos_token_id s.params_.pad_token_id nt1.length 0
      nt1 em1 (by omega) (by omega)
  have hboth : nt2 = nt1 ∧ em2 = em1 := by
    have hcell : ∀ k : Nat, nt2[k]? = nt1[k]? ∧ em2[k]? = em1[k]? := by
      intro k
      by_cases hk : k < s.next_tokens.length
      · have ht : s.next_tokens[k]? = some s.next_tokens[k] := List.getElem?_eq_getElem hk
        have hf : s.eos_meet[k]? = some s.eos_meet[k] := List.getElem?_eq_getElem (by omega)
        obtain ⟨a1, a2⟩ := hin1 k _ _ (Nat.zero_le k) (by omega) ht hf
        obtain ⟨b1, b2⟩ := hin2 k _ _ (Nat.zero_le k) (by omega) a2 a1
        rw [b1, b2, a1, a2]
        rcases Bool.eq_false_or_eq_true
          (decide (s.next_tokens[k] = s.params_.eos_token_id) || s.eos_meet[k]) with hc | hc
        · rw [hc]
          simp
        · rw [hc]
          have hne : ¬ s.next_tokens[k] = s.params_.eos_token_id := by
            intro h
            simp [h] at hc
          simp [hne]
      · rw [List.getElem?_eq_none (by omega), List.getElem?_eq_none (by omega),
          List.getElem?_eq_none (by omega), List.getElem?_eq_none (by omega)]
        exact ⟨rfl, rfl⟩
    exact ⟨List.ext_getElem? fun k => (hcell k).1, List.ext_getElem? fun k => (hcell k).2⟩
  obtain ⟨hnt, hem⟩ := hboth
  subst hnt
  subst hem
  refine ⟨{ s with
      next_tokens := nt2
      eos_meet := em2
      done_ := if firstUnfinished em2 em2.length 0 = em2.length then true else s.done_ },
    by simp only [Search.CheckForEOS, hloop1], ?_⟩
  simp only [Search.CheckForEOS, hloop2]
  by_cases hall : firstUnfinished em2 em2.length 0 = em2.length
  · simp only [if_pos hall]
  · simp only [if_neg hall]

/-- A concrete instance of C19: row 0 selected the eos id 9, row 1 did not. -/
theorem CheckForEOS_idempotent_witness :
    ∃ s1, Search.CheckForEOS { twoRowSearch with next_tokens := [9, 2] } = some s1 ∧
      s1.CheckForEOS = some s1 ∧ s1.next_tokens = [0, 2] := by
  obtain ⟨s1, h1, h2⟩ :=
    CheckForEOS_idempotent { twoRowSearch with next_tokens := [9, 2] } (by decide)
  refine ⟨s1, h1, h2, ?_⟩
  have h : Search.CheckForEOS { twoRowSearch with next_tokens := [9, 2] }
      = some { twoRowSearch with next_tokens := [0, 2], eos_meet := [true, false] } := by
    decide
  rw [h] at h1
  injection h1 with h1
  rw [← h1]

/-! ## Theorems: selection does not read the score rows -/

/-- Claim C1, the code at a failing input. Two rows, two prompt positions, two
token ids; the model returns `[0, 1]`, `[1, 0]` for row 0 and `[1, 0]`,
`[0, 1]` for row 1. `RunModel` extracts the last positions, so the score
vector of row 0 is `[1, 0]` (least maximal index 0) and that of row 1 is
`[0, 1]` (least maximal index 1). `NextTokensFromLogits` scans the logits data
from its start in windows of `vocab_size` and stores `[1, 0]`: for row 0 it
selects token 1, whose score 0 is below the score 1 of token 0. The same scan
over the rows of the score buffer gives `[0, 1]`. -/
theorem NextTokensFromLogits_misses_score_rows :
    Search.new twoPositionParams [0, 0, 0, 0] = some twoPositionStart ∧
    twoPositionStart.RunModel twoPositionLogits = some twoPositionScored ∧
    twoPositionScored.next_token_scores = [1, 0, 0, 1] ∧
    twoPositionScored.NextTokensFromLogits
      = some { twoPositionScored with next_tokens := [1, 0] } ∧
    twoPositionScored.next_token_scores[0 * twoPositionParams.vocab_size + 1]? = some 0 ∧
    twoPositionScored.next_token_scores[0 * twoPositionParams.vocab_size + 0]? = some 1 ∧
    ¬ ((1 : Int) ≤ 0) ∧
    twoPositionScored.NextTokensFromScores
      = some { twoPositionScored with next_tokens := [0, 1] } := by
  refine ⟨by decide, by decide, rfl, by decide, by decide, by decide, by decide, by decide⟩

/-! ## Theorems: overflow -/

theorem allocateAll_cases (allocate : ConstructorBuffer → Nat → Bool) :
    ∀ (requests made : List (ConstructorBuffer × Nat)),
      allocateAll allocate requests made = (made ++ requests, true) ∨
      ∃ extra buffer count, allocateAll allocate requests made = (made ++ extra, false) ∧
        allocate buffer count = false := by
  intro requests
  induction requests with
  | nil =>
    intro made
    left
    simp only [allocateAll, List.append_nil]
  | cons r rest ih =>
    intro made
    by_cases hr : allocate r.1 r.2 = true
    · rcases ih (made ++ [r]) with h | ⟨extra, buffer, count, h, hf⟩
      · left
        simp only [allocateAll, hr, if_true, h, List.append_assoc, List.singleton_append]
      · right
        refine ⟨r :: extra, buffer, count, ?_, hf⟩
        simp only [allocateAll, hr, if_true, h, List.append_assoc, List.singleton_append]
    · right
      refine ⟨[], r.1, r.2, ?_, by simpa using hr⟩
      simp only [allocateAll, hr, List.append_nil]
      rfl

theorem allocateAll_reliable (allocate : ConstructorBuffer → Nat → Bool)
    (hall : ∀ buffer count, allocate buffer count = true) :
    ∀ (requests made : List (ConstructorBuffer × Nat)),
      allocateAll allocate requests made = (made ++ requests, true) := by
  intro requests made
  rcases allocateAll_cases allocate requests made with h | ⟨_, buffer, count, _, hf⟩
  · exact h
  · rw [hall buffer count] at hf
    exact absurd hf (by decide)

theorem newLogged_state {α : Type} [Zero α] (allocate : ConstructorBuffer → Nat → Bool)
    (hall : ∀ buffer count, allocate buffer count = true)
    (params : SearchParams) (ids : List Int) :
    (Search.newLogged (α := α) allocate params ids).2.state? = Search.new params ids := by
  have hA := allocateAll_reliable allocate hall
  cases h1 : safeMul 2 params.batch_size with
  | none => simp only [Search.newLogged, Search.new, hA, h1, ConstructorOutcome.state?]
  | some two_b =>
    cases h2 : safeMul two_b params.max_length with
    | none => simp only [Search.newLogged, Search.new, hA, h1, h2, ConstructorOutcome.state?]
    | some n =>
      cases h3 : safeMul params.batch_size params.vocab_size with
      | none =>
        simp only [Search.newLogged, Search.new, hA, h1, h2, h3, ConstructorOutcome.state?]
      | some k =>
        cases hS : Search.SetSequence
            ({ params_ := params
               first_run_ := true
               logits_ := ⟨[], []⟩
               sequences_space := List.replicate n 0
               sequences_ := Sequences.Init params.batch_size params.sequence_length
                 params.max_length
               eos_meet := List.replicate params.batch_size false
               next_tokens := List.replicate params.batch_size 0
               next_token_scores := List.replicate k 0
               done_ := false
               output_sequences_ :=
                 List.replicate (params.batch_size * params.max_length) 0 } : Search α)
            ids with
        | none =>
          simp only [Search.newLogged, Search.new, hA, h1, h2, h3, hS,
            ConstructorOutcome.state?]
        | some s =>
          simp only [Search.newLogged, Search.new, hA, h1, h2, h3, hS,
            ConstructorOutcome.state?]

theorem GetOrCreateTensorWith_view (sb : StaticBuffer) (a : Allocator) (shape : List Int)
    (type : ONNXTensorElementDataType) :
    (sb.GetOrCreateTensorWith (fun p n sh t => some ⟨p, n, sh, t⟩) a shape type).map
        (fun r => (r.1, r.2))
      = (sb.GetOrCreateTensor a shape type).map (fun r => (some r.1, r.2)) := by
  simp only [StaticBuffer.GetOrCreateTensorWith, StaticBuffer.GetOrCreateTensor]
  cases StaticBuffer.GetElementSize type with
  | none => rfl
  | some e =>
    simp only
    by_cases h0 : sb.buffer_ = 0
    · simp only [if_pos h0, Option.map_some']
    · simp only [if_neg h0]
      split <;> simp only [Option.map_some']

end Generators
